import Mathlib

/-!
# Verification of the `collections` C library core

Shallow embedding of the array-backed container (`src/source/vector/vector.c`,
reused by `src/source/stack/stack.c`) and of the doubly-linked sequence with
its merge sort (`src/unnamed/part_004`, a `list.c` iteration), together with
proofs of the specified properties.

Machine integers (`size_t`) are modelled as `Nat`; the C `double` growth
factor is modelled as `ℚ` (the comparisons against the literals `1.5` and `2`
and the concrete growth computations in scope are exact in both types).
`malloc`/`realloc` outcomes are explicit `Bool` parameters (`true` = the
allocation succeeds); NULL pointers passed as arguments are `Option.none`;
`errno` codes are the `Err` type returned next to the new state.
-/

namespace Collections

/-- The `errno` values the library uses: `EINVAL`, `ENOMEM`, `ENOSPC`. -/
inductive Err where
  | EINVAL
  | ENOMEM
  | ENOSPC
deriving DecidableEq, Repr

/-- `SIZE_MAX` on the modelled platform (64-bit, `sizeof(void *) == 8`). -/
def SIZE_MAX : Nat := 2 ^ 64 - 1

/-- `const size_t VECTOR_LIMIT = SIZE_MAX / (2 * sizeof(void *)) - 1;` -/
def VECTOR_LIMIT : Nat := SIZE_MAX / (2 * 8) - 1

/-- `const size_t STACK_LIMIT = SIZE_MAX / (2 * sizeof(void *)) - 1;` -/
def STACK_LIMIT : Nat := SIZE_MAX / (2 * 8) - 1

/-- `struct _Vector` from `src/source/vector/vector.c`.  The live slots
`data[0 .. size)` are modelled as the list `data` (so `size` is
`data.length`); `capacity` counts allocated (live or spare) slots.  The
element type `α` stands for the `width`-byte records, so byte-for-byte
equality of records is equality in `α`.  The `clone` hook, when configured,
returns `none` to model the hook returning `false`; the `delete` hook has no
observable effect on the modelled state and is omitted. -/
structure Vector (α : Type) where
  data : List α
  width : Nat
  limit : Nat
  capacity : Nat
  increment : ℚ
  clone : Option (α → Option α)

/-- `_data_clone` (vector.c): clone-hook-or-byte-copy of `data` into a fresh
destination; `none` models returning `false`. -/
def _data_clone {α : Type} (v : Vector α) (data : α) : Option α :=
  match v.clone with
  | some f => f data
  | none => some data

/-- `_data_construct` (vector.c): `malloc(width)` (outcome `allocOk`), then
`_data_clone`; `none` models returning `NULL` (`errno` `ENOMEM`, or the
clone hook's failure surfaced to the caller). -/
def _data_construct {α : Type} (v : Vector α) (allocOk : Bool) (data : α) : Option α :=
  if allocOk then _data_clone v data else none

/-- `vector_construct` (vector.c).  `vecAlloc`/`dataAlloc` are the outcomes
of the two `malloc` calls. -/
def vector_construct (α : Type) (width limit capacity : Nat) (increment : ℚ)
    (clone : Option (α → Option α)) (vecAlloc dataAlloc : Bool) :
    Except Err (Vector α) :=
  if width = 0 ∨ limit = 0 ∨ limit > VECTOR_LIMIT ∨ capacity > limit ∨ increment < 2 then
    .error .EINVAL
  else if ¬vecAlloc then
    .error .ENOMEM
  else if capacity > 0 ∧ ¬dataAlloc then
    .error .ENOMEM
  else
    .ok ⟨[], width, limit, capacity, increment, clone⟩

/-- The capacity-growth loop of `vector_reserve` (vector.c):
`while (capacity < size) { capacity *= increment; if (capacity > limit)
capacity = limit; else if (capacity <= vector->capacity) capacity = limit; }`.
`cap0` is the unchanged `vector->capacity` the overflow heuristic compares
against; `c` is the loop variable.  `capacity *= increment` (a `size_t`
times a `double`) is exact rational multiplication truncated toward zero,
computed as `c * increment.num.toNat / increment.den` (equal to
`⌊c * increment⌋` for the nonnegative increments every constructible
vector has).  The loop is fuelled; `vector_reserve` passes fuel `size`,
which the proofs show suffices for every constructible increment (`≥ 2`). -/
def growLoop (increment : ℚ) (limit cap0 size : Nat) : Nat → Nat → Nat
  | 0, c => c
  | fuel + 1, c =>
    if c < size then
      let m := c * increment.num.toNat / increment.den
      let c2 := if m > limit then limit else if m ≤ cap0 then limit else m
      growLoop increment limit cap0 size fuel c2
    else c

/-- `vector_reserve` (vector.c).  Returns the post-call state together with
the `errno` result (`none` = the call returned `true`).  `allocOk` is the
outcome of the `realloc`. -/
def vector_reserve {α : Type} (v : Vector α) (size : Nat) (allocOk : Bool) :
    Vector α × Option Err :=
  if size > v.limit then
    (v, some .EINVAL)
  else if size ≤ v.capacity then
    (v, none)
  else
    let c := growLoop v.increment v.limit v.capacity size size
      (if v.capacity = 0 then 1 else v.capacity)
    if allocOk then ({ v with capacity := c }, none) else (v, some .ENOMEM)

/-- `vector_trim` (vector.c).  `allocOk` is the `realloc` outcome (the
empty case only calls `free`, which cannot fail). -/
def vector_trim {α : Type} (v : Vector α) (allocOk : Bool) : Vector α × Option Err :=
  if v.data.length = 0 then
    ({ v with capacity := 0 }, none)
  else if allocOk then
    ({ v with capacity := v.data.length }, none)
  else
    (v, some .ENOMEM)

/-- `vector_insert` (vector.c).  `data = none` models a NULL `data`
argument; `rAlloc` is the `realloc` outcome inside `vector_reserve` and
`cAlloc` the `malloc` outcome inside `_data_construct`.  The shift loop
moving `data[index, size)` one slot right followed by the store at `index`
yields `take index ++ new :: drop index`. -/
def vector_insert {α : Type} (v : Vector α) (index : Nat) (data : Option α)
    (rAlloc cAlloc : Bool) : Vector α × Option Err :=
  match data with
  | none => (v, some .EINVAL)
  | some val =>
    if index > v.data.length then
      (v, some .EINVAL)
    else if v.data.length = v.limit then
      (v, some .ENOSPC)
    else
      match vector_reserve v (v.data.length + 1) rAlloc with
      | (v1, some e) => (v1, some e)
      | (v1, none) =>
        match _data_construct v1 cAlloc val with
        | none => (v1, some .ENOMEM)
        | some new =>
          ({ v1 with data := v1.data.take index ++ new :: v1.data.drop index }, none)

/-- `vector_get` (vector.c): bounds-checked copy-out of slot `index`
through `_data_clone`; the copied-out record is returned in place of the
destination buffer (a NULL destination is not modelled: the round-trip
claims pass a real one). -/
def vector_get {α : Type} (v : Vector α) (index : Nat) : Except Err α :=
  match v.data[index]? with
  | none => .error .EINVAL
  | some x =>
    match _data_clone v x with
    | none => .error .ENOMEM
    | some y => .ok y

/-- `vector_remove` (vector.c).  `withDest` tells whether a non-NULL
destination was passed (the copy-out happens, and can abort the removal,
exactly then); the shift loop yields `take index ++ drop (index + 1)`. -/
def vector_remove {α : Type} (v : Vector α) (index : Nat) (withDest : Bool) :
    Vector α × Option Err :=
  match v.data[index]? with
  | none => (v, some .EINVAL)
  | some x =>
    if withDest then
      match _data_clone v x with
      | none => (v, some .ENOMEM)
      | some _ =>
        ({ v with data := v.data.take index ++ v.data.drop (index + 1) }, none)
    else
      ({ v with data := v.data.take index ++ v.data.drop (index + 1) }, none)

/-- `vector_size` (vector.c), on a possibly-NULL vector: the returned value
together with the `errno` it reports. -/
def vector_size {α : Type} : Option (Vector α) → Nat × Option Err
  | none => (0, some .EINVAL)
  | some v => (v.data.length, none)

/-- `vector_width` (vector.c) on a possibly-NULL vector. -/
def vector_width {α : Type} : Option (Vector α) → Nat × Option Err
  | none => (0, some .EINVAL)
  | some v => (v.width, none)

/-- `vector_limit` (vector.c) on a possibly-NULL vector. -/
def vector_limit {α : Type} : Option (Vector α) → Nat × Option Err
  | none => (0, some .EINVAL)
  | some v => (v.limit, none)

/-- `vector_capacity` (vector.c) on a possibly-NULL vector. -/
def vector_capacity {α : Type} : Option (Vector α) → Nat × Option Err
  | none => (0, some .EINVAL)
  | some v => (v.capacity, none)

/-- `vector_increment` (vector.c) on a possibly-NULL vector. -/
def vector_increment {α : Type} : Option (Vector α) → ℚ × Option Err
  | none => (0, some .EINVAL)
  | some v => (v.increment, none)

/-- `vector_empty` (vector.c) on a possibly-NULL vector. -/
def vector_empty {α : Type} : Option (Vector α) → Bool × Option Err
  | none => (false, some .EINVAL)
  | some v => (decide (v.data.length = 0), none)

/-- `vector_full` (vector.c) on a possibly-NULL vector. -/
def vector_full {α : Type} : Option (Vector α) → Bool × Option Err
  | none => (false, some .EINVAL)
  | some v => (decide (v.data.length = v.limit), none)

/-- The invariants `vector_construct` establishes: positive width and
limit, the platform bound on `limit`, growth factor at least `2`, and
`count ≤ capacity ≤ limit`. -/
def Vector.Valid {α : Type} (v : Vector α) : Prop :=
  1 ≤ v.width ∧ 1 ≤ v.limit ∧ v.limit ≤ VECTOR_LIMIT ∧ (2 : ℚ) ≤ v.increment ∧
    v.data.length ≤ v.capacity ∧ v.capacity ≤ v.limit

/-- One mutating call of the GrowableArray API (§8 of the spec names
`insert`/`remove`/`reserve`/`trim`), with its allocation outcomes. -/
inductive VOp (α : Type) where
  | insert (index : Nat) (data : Option α) (rAlloc cAlloc : Bool)
  | remove (index : Nat) (withDest : Bool)
  | reserve (size : Nat) (alloc : Bool)
  | trim (alloc : Bool)

/-- The state after one call (succeeding or failing). -/
def vector_step {α : Type} (v : Vector α) : VOp α → Vector α
  | .insert i d ra ca => (vector_insert v i d ra ca).1
  | .remove i wd => (vector_remove v i wd).1
  | .reserve n a => (vector_reserve v n a).1
  | .trim a => (vector_trim v a).1

/-- The state after a finite sequence of calls. -/
def vector_run {α : Type} (v : Vector α) (ops : List (VOp α)) : Vector α :=
  ops.foldl vector_step v

/-- `struct _Stack` from `src/source/stack/stack.c` (the vector-backed
variant whose constructor the claims cite), modelled exactly like
`Vector`. -/
structure Stack (α : Type) where
  data : List α
  width : Nat
  limit : Nat
  capacity : Nat
  growth : ℚ
  copy : Option (α → Option α)

/-- `stack_construct` (stack.c, lines 64-68): same guard as
`vector_construct`, with the growth-factor check `growth < 2`. -/
def stack_construct (α : Type) (width limit capacity : Nat) (growth : ℚ)
    (copy : Option (α → Option α)) (stackAlloc dataAlloc : Bool) :
    Except Err (Stack α) :=
  if width = 0 ∨ limit = 0 ∨ limit > STACK_LIMIT ∨ capacity > limit ∨ growth < 2 then
    .error .EINVAL
  else if ¬stackAlloc then
    .error .ENOMEM
  else if capacity > 0 ∧ ¬dataAlloc then
    .error .ENOMEM
  else
    .ok ⟨[], width, limit, capacity, growth, copy⟩

/-- `stack_size` (stack.c) on a possibly-NULL stack. -/
def stack_size {α : Type} : Option (Stack α) → Nat × Option Err
  | none => (0, some .EINVAL)
  | some s => (s.data.length, none)

/-- `struct _List` from `src/unnamed/part_004` (a `list.c` iteration), at
the level of the value sequence held in the node chain: `data` lists the
values from `front` to `back`, so `size` is `data.length` (the
pointer-level node structure is modelled separately below for the
structural-invariant claim). -/
structure LList (α : Type) where
  data : List α
  width : Nat
  limit : Nat
  clone : Option (α → Option α)

/-- `_value_copy` (part_004): clone-hook-or-byte-copy. -/
def _value_copy {α : Type} (l : LList α) (value : α) : Option α :=
  match l.clone with
  | some f => f value
  | none => some value

/-- `_value_construct` (part_004): `malloc(width)` (outcome `allocOk`)
then `_value_copy`. -/
def _value_construct {α : Type} (l : LList α) (allocOk : Bool) (value : α) : Option α :=
  if allocOk then _value_copy l value else none

/-- `_node_construct` (part_004): `malloc` of the node (outcome
`nodeAlloc`) then `_value_construct` (outcome `valAlloc`). -/
def _node_construct {α : Type} (l : LList α) (nodeAlloc valAlloc : Bool) (value : α) :
    Option α :=
  if nodeAlloc then _value_construct l valAlloc value else none

/-- `list_insert` (part_004).  The four splice cases (empty list, front,
back, interior) all place the new node's value at position `index` of the
value sequence. -/
def list_insert {α : Type} (l : LList α) (index : Nat) (value : Option α)
    (nodeAlloc valAlloc : Bool) : LList α × Option Err :=
  match value with
  | none => (l, some .EINVAL)
  | some val =>
    if index > l.data.length then
      (l, some .EINVAL)
    else if l.data.length = l.limit then
      (l, some .ENOSPC)
    else
      match _node_construct l nodeAlloc valAlloc val with
      | none => (l, some .ENOMEM)
      | some new =>
        ({ l with data := l.data.take index ++ new :: l.data.drop index }, none)

/-- `list_size` (part_004 / list.c) on a possibly-NULL list. -/
def list_size {α : Type} : Option (LList α) → Nat × Option Err
  | none => (0, some .EINVAL)
  | some l => (l.data.length, none)

/-- The fast/slow-pointer loop of `_list_split` (part_004).  `slow` and
`fast` are the suffixes of the chain the two pointers rest on; the loop
advances `fast` two nodes and `slow` one node while `fast->next` and
`fast->next->next` exist, then cuts after `slow` and returns both halves. -/
def _list_splitGo {α : Type} : List α → List α → List α × List α
  | slow, _ :: _ :: f3 :: frest =>
    (match slow with
    | s :: srest =>
      let p := _list_splitGo srest (f3 :: frest)
      (s :: p.1, p.2)
    | [] => ([], []))
  | slow, _ =>
    (match slow with
    | s :: srest => ([s], srest)
    | [] => ([], []))
termination_by slow fast => fast.length

/-- `_list_split` (part_004): both pointers start at `front`. -/
def _list_split {α : Type} (front : List α) : List α × List α :=
  _list_splitGo front front

/-- Closed form of the split loop: the first half is the first
`⌈n/2⌉` nodes, where `n` is the length of the chain under `fast`. -/
lemma _list_splitGo_eq {α : Type} :
    ∀ (n : Nat) (fast slow : List α), fast.length ≤ n → fast ≠ [] →
      _list_splitGo slow fast =
        (slow.take ((fast.length + 1) / 2), slow.drop ((fast.length + 1) / 2)) := by
  intro n
  induction n with
  | zero =>
    intro fast slow hlen hne
    cases fast with
    | nil => exact absurd rfl hne
    | cons a t => simp at hlen
  | succ n ih =>
    intro fast slow hlen hne
    match fast with
    | [a] =>
      cases slow with
      | nil => simp [_list_splitGo]
      | cons s srest => simp [_list_splitGo]
    | [a, b] =>
      cases slow with
      | nil => simp [_list_splitGo]
      | cons s srest => simp [_list_splitGo]
    | a :: b :: c :: rest =>
      cases slow with
      | nil => simp [_list_splitGo]
      | cons s srest =>
        rw [_list_splitGo]
        have hlen' : (c :: rest).length ≤ n := by
          simp at hlen ⊢
          omega
        rw [ih (c :: rest) srest hlen' (by simp)]
        have harith : ((a :: b :: c :: rest).length + 1) / 2 =
            ((c :: rest).length + 1) / 2 + 1 := by
          simp
          omega
        rw [harith]
        simp

/-- Closed form of `_list_split` on a nonempty chain. -/
lemma _list_split_eq {α : Type} (l : List α) (h : l ≠ []) :
    _list_split l = (l.take ((l.length + 1) / 2), l.drop ((l.length + 1) / 2)) :=
  _list_splitGo_eq l.length l l (le_refl _) h

/-- A chain of at least two nodes splits into two strictly shorter halves. -/
lemma _list_split_shorter {α : Type} (l : List α) (h : 2 ≤ l.length) :
    (_list_split l).1.length < l.length ∧ (_list_split l).2.length < l.length := by
  rw [_list_split_eq l (by intro he; rw [he] at h; simp at h)]
  constructor
  · simp only [List.length_take]
    omega
  · simp only [List.length_drop]
    omega

/-- `_list_merge` (part_004): the recursive merge.  The head of `first`
is consumed only when `(reverse ? -1 : 1) * compare(first->value,
second->value) < 0` holds strictly; otherwise the head of `second` is
consumed. -/
def _list_merge {α : Type} (reverse : Bool) (compare : α → α → Int) :
    List α → List α → List α
  | [], second => second
  | first, [] => first
  | x :: a, y :: b =>
    if ((if reverse then -1 else 1) : Int) * compare x y < 0 then
      x :: _list_merge reverse compare a (y :: b)
    else
      y :: _list_merge reverse compare (x :: a) b
termination_by first second => first.length + second.length

/-- `_list_mergesort` (part_004): base case `front == NULL ||
front->next == NULL`, otherwise split, recurse, merge. -/
def _list_mergesort {α : Type} (reverse : Bool) (compare : α → α → Int)
    (front : List α) : List α :=
  if h : front.length < 2 then front
  else
    _list_merge reverse compare
      (_list_mergesort reverse compare (_list_split front).1)
      (_list_mergesort reverse compare (_list_split front).2)
termination_by front.length
decreasing_by
  · exact (_list_split_shorter front (by omega)).1
  · exact (_list_split_shorter front (by omega)).2

/-- `list_sort` (part_004): sorts the chain in place (the value sequence
becomes the merge-sorted sequence; `back` is then recomputed by walking
the chain, which at value level is invisible). -/
def list_sort {α : Type} (l : LList α) (reverse : Bool)
    (compare : Option (α → α → Int)) : LList α × Option Err :=
  match compare with
  | none => (l, some .EINVAL)
  | some cmp => ({ l with data := _list_mergesort reverse cmp l.data }, none)

/-! ## Pointer-level model of the linked list (for the structural
invariant).  `struct _Node` pointers are heap indices; the heap is a list
of allocated cells (`none` = freed); `malloc` of a node appends a fresh
cell.  Every pointer write of the C code is a separate heap update. -/

/-- A pointer (`_node_t *`) is a heap index; NULL is `Option.none`. -/
abbrev Ptr := Nat

/-- `struct _Node` from `src/unnamed/part_004`. -/
structure PNode (α : Type) where
  value : α
  next : Option Ptr
  previous : Option Ptr

/-- Dereference a pointer (`none` for freed or out-of-heap cells). -/
def heapGet {α : Type} (h : List (Option (PNode α))) (p : Ptr) : Option (PNode α) :=
  (h[p]?).getD none

/-- Overwrite the cell `p` points to. -/
def heapSet {α : Type} (h : List (Option (PNode α))) (p : Ptr) (nd : PNode α) :
    List (Option (PNode α)) :=
  h.set p (some nd)

/-- `free` the cell `p` points to. -/
def heapFree {α : Type} (h : List (Option (PNode α))) (p : Ptr) :
    List (Option (PNode α)) :=
  h.set p none

/-- `p->next = q`. -/
def setNext {α : Type} (h : List (Option (PNode α))) (p : Ptr) (q : Option Ptr) :
    List (Option (PNode α)) :=
  match heapGet h p with
  | some nd => heapSet h p { nd with next := q }
  | none => h

/-- `p->previous = q`. -/
def setPrev {α : Type} (h : List (Option (PNode α))) (p : Ptr) (q : Option Ptr) :
    List (Option (PNode α)) :=
  match heapGet h p with
  | some nd => heapSet h p { nd with previous := q }
  | none => h

/-- `p->value = v`. -/
def setValue {α : Type} (h : List (Option (PNode α))) (p : Ptr) (v : α) :
    List (Option (PNode α)) :=
  match heapGet h p with
  | some nd => heapSet h p { nd with value := v }
  | none => h

/-- `struct _List` from `src/unnamed/part_004`, at pointer level. -/
structure PList (α : Type) where
  heap : List (Option (PNode α))
  front : Option Ptr
  back : Option Ptr
  size : Nat
  width : Nat
  limit : Nat
  clone : Option (α → Option α)

/-- `for (i = 0; i < k; i++) node = node->next;` -/
def walkNext {α : Type} (h : List (Option (PNode α))) : Nat → Option Ptr → Option Ptr
  | 0, p => p
  | k + 1, p => walkNext h k (p.bind fun q => (heapGet h q).bind (·.next))

/-- `for (i = 0; i < k; i++) node = node->previous;` -/
def walkPrev {α : Type} (h : List (Option (PNode α))) : Nat → Option Ptr → Option Ptr
  | 0, p => p
  | k + 1, p => walkPrev h k (p.bind fun q => (heapGet h q).bind (·.previous))

/-- `_node_search` (part_004): walk from the nearer end. -/
def pnode_search {α : Type} (l : PList α) (index : Nat) : Option Ptr :=
  if index ≥ l.size then none
  else if index < l.size / 2 then walkNext l.heap index l.front
  else walkPrev l.heap (l.size - index - 1) l.back

/-- `_value_copy` (part_004), for the pointer-level model. -/
def _pvalue_copy {α : Type} (l : PList α) (value : α) : Option α :=
  match l.clone with
  | some f => f value
  | none => some value

/-- `_node_construct` without the link initialisation: the stored value a
fresh node will carry (`none` = some allocation or the clone hook
failed). -/
def _pnode_value {α : Type} (l : PList α) (nodeAlloc valAlloc : Bool) (value : α) :
    Option α :=
  if nodeAlloc then (if valAlloc then _pvalue_copy l value else none) else none

/-- `list_insert` (part_004) at pointer level: the fresh node is appended
to the heap with `next = previous = NULL` (as `_node_construct` leaves
it), then spliced by the four cases of the C code. -/
def plist_insert {α : Type} (l : PList α) (index : Nat) (value : Option α)
    (nodeAlloc valAlloc : Bool) : PList α × Option Err :=
  match value with
  | none => (l, some .EINVAL)
  | some val =>
    if index > l.size then
      (l, some .EINVAL)
    else if l.size = l.limit then
      (l, some .ENOSPC)
    else
      match _pnode_value l nodeAlloc valAlloc val with
      | none => (l, some .ENOMEM)
      | some stored =>
        let q := l.heap.length
        let h0 := l.heap ++ [some ⟨stored, none, none⟩]
        if l.front = none then
          ({ l with heap := h0, front := some q, back := some q, size := l.size + 1 },
            none)
        else if index = 0 then
          let h1 := setNext h0 q l.front
          let h2 := match l.front with
            | some f => setPrev h1 f (some q)
            | none => h1
          ({ l with heap := h2, front := some q, size := l.size + 1 }, none)
        else if index = l.size then
          let h1 := setPrev h0 q l.back
          let h2 := match l.back with
            | some b => setNext h1 b (some q)
            | none => h1
          ({ l with heap := h2, back := some q, size := l.size + 1 }, none)
        else
          match pnode_search l index with
          | none => (l, some .EINVAL)
          | some node =>
            let prevp := (heapGet h0 node).bind (·.previous)
            let h1 := setPrev h0 q prevp
            let h2 := setNext h1 q (some node)
            let h3 := match prevp with
              | some pp => setNext h2 pp (some q)
              | none => h2
            let h4 := setPrev h3 node (some q)
            ({ l with heap := h4, size := l.size + 1 }, none)

/-- `_node_remove` (list.c lines 440-467): the four unlink cases, then
`_node_free` and the size decrement. -/
def _pnode_remove {α : Type} (l : PList α) (node : Ptr) : PList α :=
  let nd := heapGet l.heap node
  if l.size = 1 then
    { l with
      heap := heapFree l.heap node
      front := none
      back := none
      size := l.size - 1 }
  else if l.front = some node then
    let newf := nd.bind (·.next)
    let h1 := match newf with
      | some f => setPrev l.heap f none
      | none => l.heap
    { l with heap := heapFree h1 node, front := newf, size := l.size - 1 }
  else if l.back = some node then
    let newb := nd.bind (·.previous)
    let h1 := match newb with
      | some b => setNext l.heap b none
      | none => l.heap
    { l with heap := heapFree h1 node, back := newb, size := l.size - 1 }
  else
    let pn := nd.bind (·.previous)
    let nx := nd.bind (·.next)
    let h1 := match pn with
      | some pp => setNext l.heap pp nx
      | none => l.heap
    let h2 := match nx with
      | some nn => setPrev h1 nn pn
      | none => h1
    { l with heap := heapFree h2 node, size := l.size - 1 }

/-- `list_remove` (part_004) at pointer level (`withDest` = a non-NULL
destination was passed; copying out through the clone hook can abort the
removal). -/
def plist_remove {α : Type} (l : PList α) (index : Nat) (withDest : Bool) :
    PList α × Option Err :=
  if index ≥ l.size then
    (l, some .EINVAL)
  else
    match pnode_search l index with
    | none => (l, some .EINVAL)
    | some node =>
      if withDest then
        match (heapGet l.heap node).bind fun nd => _pvalue_copy l nd.value with
        | none => (l, some .ENOMEM)
        | some _ => (_pnode_remove l node, none)
      else
        (_pnode_remove l node, none)

/-- The traversal of `list_removeall` (part_004): snapshot `next`, unlink
the node if it matches, continue from the snapshot.  Fuelled (the C loop
walks the finite chain). -/
def _premoveall_loop {α : Type} (cmp : α → α → Int) (key : α) :
    Nat → PList α → Option Ptr → PList α
  | 0, l, _ => l
  | _ + 1, l, none => l
  | fuel + 1, l, some p =>
    match heapGet l.heap p with
    | none => l
    | some nd =>
      if cmp nd.value key = 0 then
        _premoveall_loop cmp key fuel (_pnode_remove l p) nd.next
      else
        _premoveall_loop cmp key fuel l nd.next

/-- `list_removeall` (part_004) at pointer level. -/
def plist_removeall {α : Type} (l : PList α) (key : Option α)
    (compare : Option (α → α → Int)) : PList α × Option Err :=
  match key, compare with
  | some k, some cmp => (_premoveall_loop cmp k l.size l l.front, none)
  | _, _ => (l, some .EINVAL)

/-- `list_set` (part_004) at pointer level: construct the new value, then
overwrite the searched node's value slot. -/
def plist_set {α : Type} (l : PList α) (index : Nat) (value : Option α)
    (valAlloc : Bool) : PList α × Option Err :=
  match value with
  | none => (l, some .EINVAL)
  | some val =>
    if index ≥ l.size then
      (l, some .EINVAL)
    else
      match (if valAlloc then _pvalue_copy l val else none) with
      | none => (l, some .ENOMEM)
      | some new =>
        match pnode_search l index with
        | none => (l, some .EINVAL)
        | some node => ({ l with heap := setValue l.heap node new }, none)

/-- The freeing walk of `list_clear` (part_004), fuelled. -/
def _pclear_loop {α : Type} :
    Nat → List (Option (PNode α)) → Option Ptr → List (Option (PNode α))
  | 0, h, _ => h
  | _ + 1, h, none => h
  | fuel + 1, h, some p =>
    match heapGet h p with
    | none => h
    | some nd => _pclear_loop fuel (heapFree h p) nd.next

/-- `list_clear` (part_004) at pointer level. -/
def plist_clear {α : Type} (l : PList α) : PList α × Option Err :=
  ({ l with
    heap := _pclear_loop l.size l.heap l.front
    front := none
    back := none
    size := 0 }, none)

/-- The fast/slow loop of `_list_split` (part_004), fuelled; returns the
final `slow` pointer. -/
def _psplit_loop {α : Type} (h : List (Option (PNode α))) :
    Nat → Ptr → Ptr → Ptr
  | 0, slow, _ => slow
  | fuel + 1, slow, fast =>
    match (heapGet h fast).bind (·.next) with
    | none => slow
    | some f2 =>
      match (heapGet h f2).bind (·.next) with
      | none => slow
      | some f3 =>
        match (heapGet h slow).bind (·.next) with
        | none => slow
        | some s2 => _psplit_loop h fuel s2 f3

/-- `_list_split` (part_004) at pointer level: cut after the final `slow`
node and return the second half's head. -/
def psplit {α : Type} (h : List (Option (PNode α))) (front : Ptr) (fuel : Nat) :
    List (Option (PNode α)) × Option Ptr :=
  let slow := _psplit_loop h fuel front front
  let second := (heapGet h slow).bind (·.next)
  (setNext h slow none, second)

/-- `_list_merge` (part_004) at pointer level, fuelled: pick the head by
the (possibly sign-flipped) comparison — strictly negative takes the
first — then `smaller->next = merge(...)`, `smaller->next->previous =
smaller`, `smaller->previous = NULL`. -/
def pmerge {α : Type} (reverse : Bool) (cmp : α → α → Int) :
    Nat → List (Option (PNode α)) → Option Ptr → Option Ptr →
      List (Option (PNode α)) × Option Ptr
  | 0, h, _, _ => (h, none)
  | _ + 1, h, none, second => (h, second)
  | _ + 1, h, some f, none => (h, some f)
  | fuel + 1, h, some f, some s =>
    match heapGet h f, heapGet h s with
    | some nf, some ns =>
      if ((if reverse then -1 else 1) : Int) * cmp nf.value ns.value < 0 then
        let hr := pmerge reverse cmp fuel h nf.next (some s)
        let h2 := setNext hr.1 f hr.2
        let h3 := match hr.2 with
          | some rp => setPrev h2 rp (some f)
          | none => h2
        (setPrev h3 f none, some f)
      else
        let hr := pmerge reverse cmp fuel h (some f) ns.next
        let h2 := setNext hr.1 s hr.2
        let h3 := match hr.2 with
          | some rp => setPrev h2 rp (some s)
          | none => h2
        (setPrev h3 s none, some s)
    | _, _ => (h, none)

/-- `_list_mergesort` (part_004) at pointer level, fuelled: base case
`front == NULL || front->next == NULL`, else split, recurse, merge. -/
def pmergesort {α : Type} (reverse : Bool) (cmp : α → α → Int) :
    Nat → List (Option (PNode α)) → Option Ptr →
      List (Option (PNode α)) × Option Ptr
  | 0, h, front => (h, front)
  | fuel + 1, h, front =>
    match front with
    | none => (h, front)
    | some f =>
      match (heapGet h f).bind (·.next) with
      | none => (h, front)
      | some _ =>
        let sp := psplit h f h.length
        let r1 := pmergesort reverse cmp fuel sp.1 (some f)
        let r2 := pmergesort reverse cmp fuel r1.1 sp.2
        pmerge reverse cmp (r2.1.length + 1) r2.1 r1.2 r2.2

/-- The back-recomputing walk of `list_sort` (part_004):
`for (node = front; node; node = node->next) back = node;`, fuelled;
`acc` is the incoming `list->back` (untouched when the chain is empty). -/
def _plastWalk {α : Type} (h : List (Option (PNode α))) :
    Nat → Option Ptr → Option Ptr → Option Ptr
  | 0, _, acc => acc
  | _ + 1, none, acc => acc
  | fuel + 1, some p, _ => _plastWalk h fuel ((heapGet h p).bind (·.next)) (some p)

/-- `list_sort` (part_004) at pointer level. -/
def plist_sort {α : Type} (l : PList α) (reverse : Bool)
    (compare : Option (α → α → Int)) : PList α × Option Err :=
  match compare with
  | none => (l, some .EINVAL)
  | some cmp =>
    let r := pmergesort reverse cmp (l.size + 1) l.heap l.front
    ({ l with
      heap := r.1
      front := r.2
      back := _plastWalk r.1 l.size r.2 l.back }, none)

/-- The chain's forward links: each node exists in the heap and its
`next` points at the following element (`NULL` at the back). -/
def nextChainOK {α : Type} (h : List (Option (PNode α))) : List Ptr → Prop
  | [] => True
  | p :: rest =>
    (∃ nd, heapGet h p = some nd ∧ nd.next = rest.head?) ∧ nextChainOK h rest

/-- The chain's backward links from a given predecessor on: each node
exists and its `previous` points at the preceding element. -/
def prevLinksOK {α : Type} (h : List (Option (PNode α))) :
    Option Ptr → List Ptr → Prop
  | _, [] => True
  | prev, p :: rest =>
    (∃ nd, heapGet h p = some nd ∧ nd.previous = prev) ∧ prevLinksOK h (some p) rest

/-- Backward links correct from the second node on (the head's
`previous` is unconstrained) — the shape `_list_merge` works with. -/
def innerPrevOK {α : Type} (h : List (Option (PNode α))) : List Ptr → Prop
  | [] => True
  | p :: rest => prevLinksOK h (some p) rest

/-- The structural invariant of the claim: some finite duplicate-free
pointer list `ps` describes the chain — `front`/`back` are its first and
last pointers, `size` its length, every node exists, and the
`next`/`previous` links are exactly the neighbour relation of `ps` (so
the chain is finite, acyclic and mutually consistent, and
`front = NULL ↔ back = NULL ↔ size = 0`). -/
def PList.WF {α : Type} (l : PList α) : Prop :=
  ∃ ps : List Ptr, ps.Nodup ∧ l.size = ps.length ∧ l.front = ps.head? ∧
    l.back = ps.getLast? ∧ nextChainOK l.heap ps ∧ prevLinksOK l.heap none ps

/-! ## Lemmas about the growth loop -/

/-- A growth factor of at least `2` has `num.toNat ≥ 2 * den`. -/
lemma Rat.two_den_le_num {q : ℚ} (h : (2 : ℚ) ≤ q) : 2 * q.den ≤ q.num.toNat := by
  have hd : (0 : Int) < q.den := by exact_mod_cast q.den_pos
  have h2 : (2 : ℚ).num = 2 := rfl
  have h3 : (2 : ℚ).den = 1 := rfl
  have := (Rat.le_def).mp h
  rw [h2, h3] at this
  omega

/-- One multiplication step at least doubles a positive capacity when the
growth factor is at least `2`. -/
lemma growStep_ge {inc : ℚ} (h2 : (2 : ℚ) ≤ inc) (c : Nat) :
    2 * c ≤ c * inc.num.toNat / inc.den := by
  rw [Nat.le_div_iff_mul_le inc.den_pos]
  calc 2 * c * inc.den = c * (2 * inc.den) := by ring
    _ ≤ c * inc.num.toNat := Nat.mul_le_mul_left c (Rat.two_den_le_num h2)

/-- The growth loop never exceeds `limit`. -/
lemma growLoop_le_limit {inc : ℚ} {limit cap0 size : Nat} :
    ∀ fuel c, c ≤ limit → growLoop inc limit cap0 size fuel c ≤ limit := by
  intro fuel
  induction fuel with
  | zero => intro c hc; rw [growLoop]; exact hc
  | succ n ih =>
    intro c hc
    rw [growLoop]
    split
    · apply ih
      dsimp only
      split
      · exact le_refl _
      · split
        · exact le_refl _
        · omega
    · exact hc

/-- The growth loop never decreases the capacity (growth factor `≥ 2`). -/
lemma growLoop_ge_self {inc : ℚ} {limit cap0 size : Nat} (h2 : (2 : ℚ) ≤ inc)
    (hsl : size ≤ limit) :
    ∀ fuel c, 1 ≤ c → c ≤ growLoop inc limit cap0 size fuel c := by
  intro fuel
  induction fuel with
  | zero => intro c _; simp [growLoop]
  | succ n ih =>
    intro c hc
    rw [growLoop]
    split
    · rename_i hlt
      refine le_trans ?_ (ih _ ?_)
      · dsimp only
        have hm := growStep_ge h2 c
        split
        · omega
        · split
          · omega
          · omega
      · dsimp only
        have hm := growStep_ge h2 c
        split
        · omega
        · split
          · omega
          · omega
    · exact le_refl c

/-- With fuel `f` such that `size ≤ c * 2 ^ f`, the growth loop reaches at
least `size` (growth factor `≥ 2`, `size ≤ limit`). -/
lemma growLoop_ge_size {inc : ℚ} {limit cap0 size : Nat} (h2 : (2 : ℚ) ≤ inc)
    (hsl : size ≤ limit) :
    ∀ fuel c, 1 ≤ c → size ≤ c * 2 ^ fuel →
      size ≤ growLoop inc limit cap0 size fuel c := by
  intro fuel
  induction fuel with
  | zero =>
    intro c _ hpow
    simpa [growLoop] using by simpa using hpow
  | succ n ih =>
    intro c hc hpow
    rw [growLoop]
    split
    · rename_i hlt
      have hm := growStep_ge h2 c
      dsimp only
      split
      · rename_i hgt
        apply ih limit (by omega)
        calc size ≤ limit := hsl
          _ ≤ limit * 2 ^ n := Nat.le_mul_of_pos_right _ (Nat.pos_pow_of_pos n (by norm_num))
      · split
        · rename_i hle
          apply ih limit (by omega)
          calc size ≤ limit := hsl
            _ ≤ limit * 2 ^ n := Nat.le_mul_of_pos_right _ (Nat.pos_pow_of_pos n (by norm_num))
        · rename_i hgt hle
          apply ih _ (by omega)
          calc size ≤ c * 2 ^ (n + 1) := hpow
            _ = 2 * c * 2 ^ n := by ring
            _ ≤ c * inc.num.toNat / inc.den * 2 ^ n :=
                Nat.mul_le_mul_right _ hm
    · omega

/-- Everything `vector_reserve` guarantees on a constructible vector: the
slots are untouched, the configuration is untouched, capacity never
decreases and stays within `limit`, success implies `capacity ≥ size`,
`size > limit` fails `EINVAL`, and any failure leaves the vector exactly
as it was. -/
lemma vector_reserve_spec {α : Type} (v : Vector α) (n : Nat) (a : Bool)
    (hw : (2 : ℚ) ≤ v.increment) (h1 : 1 ≤ v.limit) (hcl : v.capacity ≤ v.limit) :
    (vector_reserve v n a).1.data = v.data ∧
    (vector_reserve v n a).1.width = v.width ∧
    (vector_reserve v n a).1.limit = v.limit ∧
    (vector_reserve v n a).1.increment = v.increment ∧
    (vector_reserve v n a).1.clone = v.clone ∧
    v.capacity ≤ (vector_reserve v n a).1.capacity ∧
    (vector_reserve v n a).1.capacity ≤ v.limit ∧
    ((vector_reserve v n a).2 = none → n ≤ (vector_reserve v n a).1.capacity) ∧
    (n > v.limit → vector_reserve v n a = (v, some .EINVAL)) ∧
    ((vector_reserve v n a).2 ≠ none → (vector_reserve v n a).1 = v) := by
  unfold vector_reserve
  split
  · rename_i hnl
    exact ⟨rfl, rfl, rfl, rfl, rfl, le_refl _, hcl, by simp, fun _ => rfl, fun _ => rfl⟩
  · rename_i hnl
    split
    · rename_i hnc
      exact ⟨rfl, rfl, rfl, rfl, rfl, le_refl _, hcl, fun _ => hnc,
        fun h => absurd h hnl, by simp⟩
    · rename_i hnc
      have hsl : n ≤ v.limit := by omega
      have hstart1 : 1 ≤ (if v.capacity = 0 then 1 else v.capacity) := by
        split <;> omega
      have hstartl : (if v.capacity = 0 then 1 else v.capacity) ≤ v.limit := by
        split <;> omega
      have hge := @growLoop_ge_self v.increment v.limit v.capacity n hw hsl n _ hstart1
      have hle := @growLoop_le_limit v.increment v.limit v.capacity n n _ hstartl
      have hsz : n ≤ growLoop v.increment v.limit v.capacity n n
          (if v.capacity = 0 then 1 else v.capacity) := by
        apply growLoop_ge_size hw hsl n _ hstart1
        calc n ≤ 2 ^ n := le_of_lt (Nat.lt_two_pow n)
          _ ≤ (if v.capacity = 0 then 1 else v.capacity) * 2 ^ n := by
              exact Nat.le_mul_of_pos_left _ (by omega)
      cases a with
      | false =>
        exact ⟨rfl, rfl, rfl, rfl, rfl, le_refl _, hcl, by simp, fun h => absurd h hnl,
          fun _ => rfl⟩
      | true =>
        refine ⟨rfl, rfl, rfl, rfl, rfl, ?_, hle, fun _ => hsz, fun h => absurd h hnl,
          by simp⟩
        refine le_trans ?_ hge
        split <;> omega

/-- `vector_reserve` preserves the construction invariant. -/
lemma vector_reserve_valid {α : Type} (v : Vector α) (n : Nat) (a : Bool)
    (hv : v.Valid) : (vector_reserve v n a).1.Valid := by
  obtain ⟨hw, h1, hpl, hinc, hdc, hcl⟩ := hv
  obtain ⟨e1, e2, e3, e4, e5, e6, e7, _, _, _⟩ := vector_reserve_spec v n a hinc h1 hcl
  exact ⟨by rw [e2]; exact hw, by rw [e3]; exact h1, by rw [e3]; exact hpl,
    by rw [e4]; exact hinc, by rw [e1]; exact le_trans hdc e6, by rw [e3]; exact e7⟩

/-- Case analysis of `vector_insert` on a constructible vector: the
configuration is never touched; capacity never decreases and stays within
`limit`; on failure the slots are untouched; on success the new slot is the
cloned value spliced at `index` and the capacity accommodates it; a failure
diagnosed before the internal reserve (`EINVAL`, `ENOSPC`) leaves the whole
state untouched. -/
lemma vector_insert_spec {α : Type} (v : Vector α) (i : Nat) (d : Option α)
    (ra ca : Bool) (hv : v.Valid) :
    (vector_insert v i d ra ca).1.width = v.width ∧
    (vector_insert v i d ra ca).1.limit = v.limit ∧
    (vector_insert v i d ra ca).1.increment = v.increment ∧
    (vector_insert v i d ra ca).1.clone = v.clone ∧
    v.capacity ≤ (vector_insert v i d ra ca).1.capacity ∧
    (vector_insert v i d ra ca).1.capacity ≤ v.limit ∧
    ((vector_insert v i d ra ca).2 ≠ none → (vector_insert v i d ra ca).1.data = v.data) ∧
    ((vector_insert v i d ra ca).2 = none → ∃ val new, d = some val ∧
      i ≤ v.data.length ∧ _data_clone v val = some new ∧
      (vector_insert v i d ra ca).1.data = v.data.take i ++ new :: v.data.drop i ∧
      v.data.length + 1 ≤ (vector_insert v i d ra ca).1.capacity) ∧
    ((vector_insert v i d ra ca).2 = some .EINVAL ∨
        (vector_insert v i d ra ca).2 = some .ENOSPC →
      (vector_insert v i d ra ca).1 = v) := by
  obtain ⟨hw, h1, hpl, hinc, hdc, hcl⟩ := hv
  unfold vector_insert
  match d with
  | none =>
    exact ⟨rfl, rfl, rfl, rfl, le_refl _, hcl, fun _ => rfl, by simp, fun _ => rfl⟩
  | some val =>
    dsimp only
    split
    · exact ⟨rfl, rfl, rfl, rfl, le_refl _, hcl, fun _ => rfl, by simp, fun _ => rfl⟩
    · rename_i hidx
      split
      · exact ⟨rfl, rfl, rfl, rfl, le_refl _, hcl, fun _ => rfl, by simp, fun _ => rfl⟩
      · rename_i hfull
        obtain ⟨e1, e2, e3, e4, e5, e6, e7, e8, _, e10⟩ :=
          vector_reserve_spec v (v.data.length + 1) ra hinc h1 hcl
        rcases hr : vector_reserve v (v.data.length + 1) ra with ⟨v1, err⟩
        rw [hr] at e1 e2 e3 e4 e5 e6 e7 e8 e10
        match err with
        | some e =>
          exact ⟨e2, e3, e4, e5, e6, e7, fun _ => e1,
            by simp, fun _ => e10 (by simp)⟩
        | none =>
          have hclone : _data_clone v1 val = _data_clone v val := by
            unfold _data_clone; rw [e5]
          dsimp only [_data_construct]
          cases ca with
          | false =>
            exact ⟨e2, e3, e4, e5, e6, e7, fun _ => e1, by simp,
              by rintro (h | h) <;> exact absurd h (by simp)⟩
          | true =>
            simp only [if_true]
            rw [hclone]
            match hcv : _data_clone v val with
            | none =>
              exact ⟨e2, e3, e4, e5, e6, e7, fun _ => e1, by simp,
                by rintro (h | h) <;> exact absurd h (by simp)⟩
            | some new =>
              refine ⟨e2, e3, e4, e5, e6, e7, by simp, ?_, by simp⟩
              intro _
              exact ⟨val, new, rfl, by omega, hcv, by rw [e1], e8 rfl⟩

/-- `vector_insert` preserves the construction invariant. -/
lemma vector_insert_valid {α : Type} (v : Vector α) (i : Nat) (d : Option α)
    (ra ca : Bool) (hv : v.Valid) : (vector_insert v i d ra ca).1.Valid := by
  obtain ⟨f1, f2, f3, f4, f5, f6, f7, f8, _⟩ := vector_insert_spec v i d ra ca hv
  obtain ⟨hw, h1, hpl, hinc, hdc, hcl⟩ := hv
  refine ⟨by rw [f1]; exact hw, by rw [f2]; exact h1, by rw [f2]; exact hpl,
    by rw [f3]; exact hinc, ?_, by rw [f2]; exact f6⟩
  match he : (vector_insert v i d ra ca).2 with
  | some e =>
    rw [f7 (by rw [he]; simp)]
    exact le_trans hdc f5
  | none =>
    obtain ⟨val, new, _, hi, _, hdata, hcap⟩ := f8 he
    rw [hdata]
    have : (v.data.take i ++ new :: v.data.drop i).length = v.data.length + 1 := by
      simp [Nat.min_eq_left hi]
      omega
    omega

/-- `vector_remove` either fails leaving the state untouched or removes
exactly slot `index`, never touching capacity or configuration. -/
lemma vector_remove_spec {α : Type} (v : Vector α) (i : Nat) (wd : Bool) :
    ((vector_remove v i wd).2 ≠ none → (vector_remove v i wd).1 = v) ∧
    ((vector_remove v i wd).2 = none →
      (vector_remove v i wd).1 =
        { v with data := v.data.take i ++ v.data.drop (i + 1) }) := by
  unfold vector_remove
  match hx : v.data[i]? with
  | none => exact ⟨fun _ => rfl, by simp⟩
  | some x =>
    cases wd with
    | false => exact ⟨by simp, fun _ => rfl⟩
    | true =>
      simp only [if_true]
      match hc : _data_clone v x with
      | none => exact ⟨fun _ => rfl, by simp⟩
      | some y => exact ⟨by simp, fun _ => rfl⟩

/-- `vector_remove` preserves the construction invariant. -/
lemma vector_remove_valid {α : Type} (v : Vector α) (i : Nat) (wd : Bool)
    (hv : v.Valid) : (vector_remove v i wd).1.Valid := by
  obtain ⟨g1, g2⟩ := vector_remove_spec v i wd
  obtain ⟨hw, h1, hpl, hinc, hdc, hcl⟩ := hv
  match he : (vector_remove v i wd).2 with
  | some e => rw [g1 (by rw [he]; simp)]; exact ⟨hw, h1, hpl, hinc, hdc, hcl⟩
  | none =>
    rw [g2 he]
    refine ⟨hw, h1, hpl, hinc, ?_, hcl⟩
    simp only [List.length_append, List.length_take, List.length_drop]
    omega

/-- `vector_trim` either fails leaving the state untouched or sets the
capacity to the live count, never touching the slots or configuration. -/
lemma vector_trim_spec {α : Type} (v : Vector α) (a : Bool) :
    ((vector_trim v a).2 ≠ none → (vector_trim v a).1 = v) ∧
    ((vector_trim v a).2 = none →
      (vector_trim v a).1 = { v with capacity := v.data.length }) := by
  unfold vector_trim
  split
  · rename_i hz
    refine ⟨by simp, fun _ => ?_⟩
    rw [hz]
  · cases a with
    | false => exact ⟨fun _ => rfl, by simp⟩
    | true => exact ⟨by simp, fun _ => rfl⟩

/-- `vector_trim` preserves the construction invariant. -/
lemma vector_trim_valid {α : Type} (v : Vector α) (a : Bool) (hv : v.Valid) :
    (vector_trim v a).1.Valid := by
  obtain ⟨g1, g2⟩ := vector_trim_spec v a
  obtain ⟨hw, h1, hpl, hinc, hdc, hcl⟩ := hv
  match he : (vector_trim v a).2 with
  | some e => rw [g1 (by rw [he]; simp)]; exact ⟨hw, h1, hpl, hinc, hdc, hcl⟩
  | none => rw [g2 he]; exact ⟨hw, h1, hpl, hinc, le_refl _, le_trans hdc hcl⟩

/-! ## Lemmas about the linked-sequence merge sort -/

/-- The merge output is a permutation of its two inputs put together. -/
lemma _list_merge_perm_aux {α : Type} (r : Bool) (cmp : α → α → Int) :
    ∀ (n : Nat) (a b : List α), a.length + b.length ≤ n →
      (_list_merge r cmp a b).Perm (a ++ b) := by
  intro n
  induction n with
  | zero =>
    intro a b hn
    match a, b with
    | [], b => simp [_list_merge]
    | x :: a, b => simp at hn
  | succ n ih =>
    intro a b hn
    match a, b with
    | [], b => simp [_list_merge]
    | x :: a, [] => simp [_list_merge]
    | x :: a, y :: b =>
      simp only [_list_merge]
      by_cases hc : ((if r then -1 else 1 : Int) * cmp x y < 0)
      · rw [if_pos hc, List.cons_append]
        exact List.Perm.cons x (ih a (y :: b) (by simp at hn ⊢; omega))
      · rw [if_neg hc]
        refine List.Perm.trans (List.Perm.cons y (ih (x :: a) b (by simp at hn ⊢; omega))) ?_
        exact (List.perm_middle).symm

/-- The merge output is a permutation of its two inputs put together. -/
lemma _list_merge_perm {α : Type} (r : Bool) (cmp : α → α → Int) (a b : List α) :
    (_list_merge r cmp a b).Perm (a ++ b) :=
  _list_merge_perm_aux r cmp (a.length + b.length) a b (le_refl _)

/-- The merge sort permutes the chain. -/
lemma _list_mergesort_perm_aux {α : Type} (r : Bool) (cmp : α → α → Int) :
    ∀ (n : Nat) (l : List α), l.length ≤ n → (_list_mergesort r cmp l).Perm l := by
  intro n
  induction n with
  | zero =>
    intro l hn
    rw [_list_mergesort, dif_pos (by omega)]
  | succ n ih =>
    intro l hn
    by_cases hlen : l.length < 2
    · rw [_list_mergesort, dif_pos hlen]
    · rw [_list_mergesort, dif_neg hlen]
      have h2 : 2 ≤ l.length := by omega
      have hne : l ≠ [] := by intro he; rw [he] at h2; simp at h2
      obtain ⟨hs1, hs2⟩ := _list_split_shorter l h2
      refine List.Perm.trans (_list_merge_perm r cmp _ _) ?_
      refine List.Perm.trans
        (List.Perm.append (ih _ (by omega)) (ih _ (by omega))) ?_
      rw [_list_split_eq l hne]
      exact List.Perm.of_eq (List.take_append_drop _ l)

/-- The merge sort permutes the chain. -/
lemma _list_mergesort_perm {α : Type} (r : Bool) (cmp : α → α → Int) (l : List α) :
    (_list_mergesort r cmp l).Perm l :=
  _list_mergesort_perm_aux r cmp l.length l (le_refl _)

/-- A comparator whose sign is antisymmetric, i.e. that induces a
consistent ordering (the contract `qsort`-style comparison functions
satisfy).  `compare x y ≤ 0` exactly when `compare y x ≥ 0`. -/
def SignAntisym {α : Type} (compare : α → α → Int) : Prop :=
  ∀ x y, compare x y ≤ 0 ↔ 0 ≤ compare y x

/-- When the merge does not consume the head of `first`, the
(possibly sign-flipped) comparison of the two heads in the other
direction is nonpositive. -/
lemma _merge_flip {α : Type} {cmp : α → α → Int} (hA : SignAntisym cmp)
    (r : Bool) (x y : α)
    (h : ¬ ((if r then -1 else 1 : Int) * cmp x y < 0)) :
    ((if r then -1 else 1 : Int)) * cmp y x ≤ 0 := by
  have h1 := hA x y
  have h2 := hA y x
  cases r <;> simp at h ⊢ <;> omega

/-- The head of a merge is the head of one of the merged chains. -/
lemma _list_merge_head? {α : Type} (r : Bool) (cmp : α → α → Int)
    (a b : List α) (z : α) (hz : (_list_merge r cmp a b).head? = some z) :
    a.head? = some z ∨ b.head? = some z := by
  match a, b with
  | [], b => right; simpa [_list_merge] using hz
  | x :: a, [] => left; simpa [_list_merge] using hz
  | x :: a, y :: b =>
    simp only [_list_merge] at hz
    by_cases hc : ((if r then -1 else 1 : Int) * cmp x y < 0)
    · rw [if_pos hc] at hz; left; simpa using hz
    · rw [if_neg hc] at hz; right; simpa using hz

/-- Merging two chains that are ordered for the (possibly sign-flipped)
comparator yields an ordered chain, provided the comparator's sign is
antisymmetric. -/
lemma _list_merge_chain_aux {α : Type} {cmp : α → α → Int} (hA : SignAntisym cmp)
    (r : Bool) :
    ∀ (n : Nat) (a b : List α), a.length + b.length ≤ n →
      a.Chain' (fun x y => ((if r then -1 else 1 : Int)) * cmp x y ≤ 0) →
      b.Chain' (fun x y => ((if r then -1 else 1 : Int)) * cmp x y ≤ 0) →
      (_list_merge r cmp a b).Chain'
        (fun x y => ((if r then -1 else 1 : Int)) * cmp x y ≤ 0) := by
  intro n
  induction n with
  | zero =>
    intro a b hn ha hb
    match a, b with
    | [], b => simpa [_list_merge] using hb
    | x :: a, b => simp at hn
  | succ n ih =>
    intro a b hn ha hb
    match a, b with
    | [], b => simpa [_list_merge] using hb
    | x :: a, [] => simpa [_list_merge] using ha
    | x :: a, y :: b =>
      simp only [_list_merge]
      obtain ⟨hxa, ha2⟩ := List.chain'_cons'.mp ha
      obtain ⟨hyb, hb2⟩ := List.chain'_cons'.mp hb
      by_cases hc : ((if r then -1 else 1 : Int) * cmp x y < 0)
      · rw [if_pos hc]
        refine List.chain'_cons'.mpr ⟨?_, ih a (y :: b) (by simp at hn ⊢; omega) ha2 hb⟩
        intro z hz
        rcases _list_merge_head? r cmp a (y :: b) z hz with h | h
        · exact hxa z h
        · simp at h
          rw [← h]
          exact le_of_lt hc
      · rw [if_neg hc]
        refine List.chain'_cons'.mpr ⟨?_, ih (x :: a) b (by simp at hn ⊢; omega) ha hb2⟩
        intro z hz
        rcases _list_merge_head? r cmp (x :: a) b z hz with h | h
        · simp at h
          rw [← h]
          exact _merge_flip hA r x y hc
        · exact hyb z h

/-- The merge sort orders the chain for the (possibly sign-flipped)
comparator, provided the comparator's sign is antisymmetric. -/
lemma _list_mergesort_chain {α : Type} {cmp : α → α → Int} (hA : SignAntisym cmp)
    (r : Bool) :
    ∀ (n : Nat) (l : List α), l.length ≤ n →
      (_list_mergesort r cmp l).Chain'
        (fun x y => ((if r then -1 else 1 : Int)) * cmp x y ≤ 0) := by
  intro n
  induction n with
  | zero =>
    intro l hn
    rw [_list_mergesort, dif_pos (by omega)]
    match l, hn with
    | [], _ => simp
    | x :: t, hn => simp at hn
  | succ n ih =>
    intro l hn
    by_cases hlen : l.length < 2
    · rw [_list_mergesort, dif_pos hlen]
      match l, hlen with
      | [], _ => simp
      | [x], _ => simp
      | x :: y :: t, hlen => simp at hlen; omega
    · rw [_list_mergesort, dif_neg hlen]
      have h2 : 2 ≤ l.length := by omega
      obtain ⟨hs1, hs2⟩ := _list_split_shorter l h2
      exact _list_merge_chain_aux hA r
        ((_list_mergesort r cmp (_list_split l).1).length +
          (_list_mergesort r cmp (_list_split l).2).length)
        _ _ (le_refl _) (ih _ (by omega)) (ih _ (by omega))

/-! ## Further auxiliary lemmas -/

/-- `vector_reserve` never touches the slots or the configuration,
whatever the vector's state. -/
lemma vector_reserve_fields {α : Type} (v : Vector α) (n : Nat) (a : Bool) :
    (vector_reserve v n a).1.data = v.data ∧
    (vector_reserve v n a).1.clone = v.clone := by
  unfold vector_reserve
  split
  · exact ⟨rfl, rfl⟩
  · split
    · exact ⟨rfl, rfl⟩
    · cases a with
      | false => exact ⟨rfl, rfl⟩
      | true => exact ⟨rfl, rfl⟩

/-- Reading back the position a value was just spliced into. -/
lemma getElem?_splice_self {α : Type} (l : List α) (i : Nat) (x : α)
    (h : i ≤ l.length) : (l.take i ++ x :: l.drop i)[i]? = some x := by
  have hlen : (l.take i).length = i := by simp [Nat.min_eq_left h]
  rw [List.getElem?_append_right (by omega)]
  rw [hlen]
  simp

/-- Any single GrowableArray call preserves the construction invariant. -/
lemma vector_step_valid {α : Type} (v : Vector α) (op : VOp α) (hv : v.Valid) :
    (vector_step v op).Valid := by
  cases op with
  | insert i d ra ca => exact vector_insert_valid v i d ra ca hv
  | remove i wd => exact vector_remove_valid v i wd hv
  | reserve n a => exact vector_reserve_valid v n a hv
  | trim a => exact vector_trim_valid v a hv

/-- Any finite sequence of GrowableArray calls preserves the construction
invariant. -/
lemma vector_run_valid {α : Type} (ops : List (VOp α)) :
    ∀ (v : Vector α), v.Valid → (vector_run v ops).Valid := by
  induction ops with
  | nil => intro v hv; exact hv
  | cons op ops ih =>
    intro v hv
    exact ih (vector_step v op) (vector_step_valid v op hv)

/-- `vector_get` with no clone hook returns the stored record. -/
lemma vector_get_of_clone_none {α : Type} (v : Vector α) (i : Nat) (x : α)
    (hclone : v.clone = none) (hx : v.data[i]? = some x) :
    vector_get v i = .ok x := by
  unfold vector_get
  rw [hx]
  dsimp only
  unfold _data_clone
  rw [hclone]

/-! ## The claims -/

/-- **C2, counterexample.**  The claim says construction with
`growthFactor = 1.5` and otherwise valid arguments does not fail
`InvalidArgument`; both cited constructors reject it with `EINVAL`
(their guard is `increment < 2` / `growth < 2`). -/
theorem C2_construct_threshold_cex :
    vector_construct Nat 4 100 0 (mkRat 3 2) none true true = .error .EINVAL ∧
    stack_construct Nat 4 100 0 (mkRat 3 2) none true true = .error .EINVAL := by
  exact ⟨rfl, rfl⟩

/-- **C2, amended.**  `vector_construct` (and the cited `stack_construct`)
fails `InvalidArgument` exactly when `width == 0`, `limit == 0`,
`limit > VECTOR_LIMIT`, `initialCapacity > limit`, or the growth factor is
below `2` (not `1.5`); consequently every growth factor `≥ 2` with
otherwise valid arguments never yields `InvalidArgument`. -/
theorem C2_construct_invalid_iff (α : Type) (w l c : Nat) (inc : ℚ)
    (hook : Option (α → Option α)) (va da : Bool) :
    (vector_construct α w l c inc hook va da = .error .EINVAL ↔
      (w = 0 ∨ l = 0 ∨ l > VECTOR_LIMIT ∨ c > l ∨ inc < 2)) ∧
    (stack_construct α w l c inc hook va da = .error .EINVAL ↔
      (w = 0 ∨ l = 0 ∨ l > STACK_LIMIT ∨ c > l ∨ inc < 2)) := by
  constructor
  · unfold vector_construct
    split
    · rename_i hcond; simpa using hcond
    · rename_i hcond
      split
      · simpa using hcond
      · split
        · simpa using hcond
        · simpa using hcond
  · unfold stack_construct
    split
    · rename_i hcond; simpa using hcond
    · rename_i hcond
      split
      · simpa using hcond
      · split
        · simpa using hcond
        · simpa using hcond

/-- **C3, counterexample.**  The claim says a failed `insert` leaves the
entire observable state, capacity included, as before.  On an empty
vector (capacity `0`, limit `100`, growth `2`) whose clone hook always
fails, `insert(0, v)` fails after the internal `reserve` has grown the
array: the call reports an error yet capacity is now `1`, so a
partially-grown array does survive the error. -/
theorem C3_insert_failed_capacity_grown_cex :
    (vector_insert (⟨[], 4, 100, 0, 2, some fun _ => none⟩ : Vector Nat)
        0 (some 7) true true).2 = some .ENOMEM ∧
    (vector_insert (⟨[], 4, 100, 0, 2, some fun _ => none⟩ : Vector Nat)
        0 (some 7) true true).1.capacity = 1 ∧
    (⟨[], 4, 100, 0, 2, some fun _ => none⟩ : Vector Nat).capacity = 0 := by
  exact ⟨rfl, rfl, rfl⟩

/-- **C3, amended.**  If `insert` fails for any reason, the stored
elements (hence the count) and the whole configuration are exactly as
before the call and the capacity has not shrunk (and is still within
`limit`); failures diagnosed before the internal reserve — invalid
argument or `NoSpace` — leave the state entirely unchanged, but when slot
construction fails after a successful reserve the capacity may remain
grown. -/
theorem C3_insert_failure_state (α : Type) (v : Vector α) (i : Nat)
    (d : Option α) (ra ca : Bool) (hv : v.Valid)
    (hfail : (vector_insert v i d ra ca).2 ≠ none) :
    (vector_insert v i d ra ca).1.data = v.data ∧
    v.capacity ≤ (vector_insert v i d ra ca).1.capacity ∧
    (vector_insert v i d ra ca).1.capacity ≤ v.limit ∧
    (vector_insert v i d ra ca).1.width = v.width ∧
    (vector_insert v i d ra ca).1.limit = v.limit ∧
    (vector_insert v i d ra ca).1.increment = v.increment ∧
    (vector_insert v i d ra ca).1.clone = v.clone ∧
    ((vector_insert v i d ra ca).2 = some .EINVAL ∨
        (vector_insert v i d ra ca).2 = some .ENOSPC →
      (vector_insert v i d ra ca).1 = v) := by
  obtain ⟨f1, f2, f3, f4, f5, f6, f7, _, f9⟩ := vector_insert_spec v i d ra ca hv
  exact ⟨f7 hfail, f5, f6, f1, f2, f3, f4, f9⟩

/-- **C3, witness** for the amended theorem: inserting at the
out-of-range index `5` of an empty vector fails and leaves the state
unchanged. -/
theorem C3_insert_failure_state_witness :
    (vector_insert (⟨[], 4, 100, 0, 2, none⟩ : Vector Nat) 5 (some 3) true true).1.data =
      (⟨[], 4, 100, 0, 2, none⟩ : Vector Nat).data ∧
    (⟨[], 4, 100, 0, 2, none⟩ : Vector Nat).capacity ≤
      (vector_insert (⟨[], 4, 100, 0, 2, none⟩ : Vector Nat) 5 (some 3) true true).1.capacity := by
  have h := C3_insert_failure_state Nat ⟨[], 4, 100, 0, 2, none⟩ 5 (some 3) true true
    ⟨by norm_num, by norm_num, by decide, by norm_num, by simp, by norm_num⟩
    (by decide)
  exact ⟨h.1, h.2.1⟩

/-- **C4, confirmed.**  After any finite sequence of
`insert`/`remove`/`reserve`/`trim` calls (succeeding or failing) on a
constructible GrowableArray, `count ≤ capacity ≤ limit` holds; since every
prefix of a sequence is itself a sequence, the invariant holds after every
call. -/
theorem C4_capacity_invariant (α : Type) (v : Vector α) (ops : List (VOp α))
    (hv : v.Valid) :
    (vector_run v ops).data.length ≤ (vector_run v ops).capacity ∧
    (vector_run v ops).capacity ≤ (vector_run v ops).limit := by
  obtain ⟨_, _, _, _, h5, h6⟩ := vector_run_valid ops v hv
  exact ⟨h5, h6⟩

/-- **C4, witness**: a concrete mixed sequence of calls on a concrete
vector. -/
theorem C4_capacity_invariant_witness :
    (vector_run (⟨[], 4, 100, 0, 2, none⟩ : Vector Nat)
        [.insert 0 (some 7) true true, .insert 1 (some 8) true true,
         .reserve 5 true, .trim true, .remove 0 false,
         .insert 9 (some 1) true true]).data.length ≤
      (vector_run (⟨[], 4, 100, 0, 2, none⟩ : Vector Nat)
        [.insert 0 (some 7) true true, .insert 1 (some 8) true true,
         .reserve 5 true, .trim true, .remove 0 false,
         .insert 9 (some 1) true true]).capacity :=
  (C4_capacity_invariant Nat ⟨[], 4, 100, 0, 2, none⟩
    [.insert 0 (some 7) true true, .insert 1 (some 8) true true,
     .reserve 5 true, .trim true, .remove 0 false,
     .insert 9 (some 1) true true]
    ⟨by norm_num, by norm_num, by decide, by norm_num, by simp, by norm_num⟩).1

/-- **C5, confirmed.**  `reserve(n)` never decreases capacity; a
successful return has `capacity ≥ n`; `n > limit` fails
`InvalidArgument`; and on a vector with `capacity = 0`, `growth = 2`,
`limit = 100`, `reserve(5)` succeeds with capacity exactly `8` (the loop
steps through 1, 2, 4, 8). -/
theorem C5_reserve_growth :
    (∀ (α : Type) (v : Vector α) (n : Nat) (a : Bool), v.Valid →
      v.capacity ≤ (vector_reserve v n a).1.capacity ∧
      ((vector_reserve v n a).2 = none → n ≤ (vector_reserve v n a).1.capacity) ∧
      (n > v.limit → vector_reserve v n a = (v, some .EINVAL))) ∧
    (vector_reserve (⟨[], 4, 100, 0, 2, none⟩ : Vector Nat) 5 true).1.capacity = 8 ∧
    (vector_reserve (⟨[], 4, 100, 0, 2, none⟩ : Vector Nat) 5 true).2 = none := by
  refine ⟨?_, rfl, rfl⟩
  intro α v n a hv
  obtain ⟨hw, h1, hpl, hinc, hdc, hcl⟩ := hv
  obtain ⟨_, _, _, _, _, e6, _, e8, e9, _⟩ := vector_reserve_spec v n a hinc h1 hcl
  exact ⟨e6, e8, e9⟩

/-- **C5, witness**: the monotonicity part applied to the concrete
vector of the scenario. -/
theorem C5_reserve_growth_witness :
    (⟨[], 4, 100, 0, 2, none⟩ : Vector Nat).capacity ≤
      (vector_reserve (⟨[], 4, 100, 0, 2, none⟩ : Vector Nat) 5 true).1.capacity :=
  ((C5_reserve_growth).1 Nat ⟨[], 4, 100, 0, 2, none⟩ 5 true
    ⟨by norm_num, by norm_num, by decide, by norm_num, by simp, by norm_num⟩).1

/-- **C7, confirmed.**  A GrowableArray (`vector_insert`) or a
LinkedSequence (`list_insert`) whose count equals its configured limit
rejects a well-formed insert with `NoSpace` (`ENOSPC`), an error distinct
from `OutOfMemory` (`ENOMEM`), leaving the whole state (in particular the
count) unchanged. -/
theorem C7_insert_full_nospace :
    (∀ (α : Type) (v : Vector α) (i : Nat) (val : α) (ra ca : Bool),
      i ≤ v.data.length → v.data.length = v.limit →
      vector_insert v i (some val) ra ca = (v, some .ENOSPC)) ∧
    (∀ (α : Type) (l : LList α) (i : Nat) (val : α) (na va : Bool),
      i ≤ l.data.length → l.data.length = l.limit →
      list_insert l i (some val) na va = (l, some .ENOSPC)) ∧
    Err.ENOSPC ≠ Err.ENOMEM := by
  refine ⟨?_, ?_, by decide⟩
  · intro α v i val ra ca hi hfull
    simp only [vector_insert]
    rw [if_neg (by omega), if_pos hfull]
  · intro α l i val na va hi hfull
    simp only [list_insert]
    rw [if_neg (by omega), if_pos hfull]

/-- **C7, witness**: a vector and a list at their limit `1` reject the
append with `ENOSPC`. -/
theorem C7_insert_full_nospace_witness :
    vector_insert (⟨[9], 4, 1, 1, 2, none⟩ : Vector Nat) 1 (some 5) true true =
      (⟨[9], 4, 1, 1, 2, none⟩, some .ENOSPC) ∧
    list_insert (⟨[9], 4, 1, none⟩ : LList Nat) 1 (some 5) true true =
      (⟨[9], 4, 1, none⟩, some .ENOSPC) :=
  ⟨(C7_insert_full_nospace).1 Nat ⟨[9], 4, 1, 1, 2, none⟩ 1 5 true true
      (by norm_num) (by norm_num),
    (C7_insert_full_nospace).2.1 Nat ⟨[9], 4, 1, none⟩ 1 5 true true
      (by norm_num) (by norm_num)⟩

/-- **C8, confirmed.**  On a GrowableArray with no clone hook, a
successful `insert(i, v)` followed by `get(i)` returns exactly the
inserted record (byte-for-byte, i.e. equality of the modelled records). -/
theorem C8_insert_get_roundtrip (α : Type) (v : Vector α) (i : Nat) (val : α)
    (ra ca : Bool) (hclone : v.clone = none)
    (hsucc : (vector_insert v i (some val) ra ca).2 = none) :
    vector_get ((vector_insert v i (some val) ra ca).1) i = .ok val := by
  simp only [vector_insert] at hsucc ⊢
  obtain ⟨hrd, hrc⟩ := vector_reserve_fields v (v.data.length + 1) ra
  rcases hr : vector_reserve v (v.data.length + 1) ra with ⟨v1, err⟩
  rw [hr] at hrd hrc hsucc
  split at hsucc
  · exact absurd hsucc (by simp)
  · rename_i hidx
    split at hsucc
    · exact absurd hsucc (by simp)
    · rename_i hfull
      rw [if_neg hidx, if_neg hfull]
      cases err with
      | some e => exact absurd hsucc (by simp)
      | none =>
        have hclone1 : v1.clone = none := hrc.trans hclone
        have hd1 : v1.data = v.data := hrd
        have hdc : _data_clone v1 val = some val := by
          unfold _data_clone; rw [hclone1]
        dsimp only at hsucc ⊢
        rcases hcon : _data_construct v1 ca val with _ | new
        · rw [hcon] at hsucc
          exact Option.noConfusion hsucc
        · dsimp only
          have hnew : new = val := by
            unfold _data_construct at hcon
            cases ca with
            | false => simp at hcon
            | true =>
              simp only [if_true] at hcon
              rw [hdc] at hcon
              exact (Option.some_injective _ hcon).symm
          rw [hnew]
          have hi : i ≤ v1.data.length := by rw [hd1]; omega
          exact vector_get_of_clone_none _ i val hclone1
            (getElem?_splice_self v1.data i val hi)

/-- **C8, witness**: inserting `99` at index `1` of `[10, 20]` and
reading it back. -/
theorem C8_insert_get_roundtrip_witness :
    vector_get ((vector_insert (⟨[10, 20], 4, 100, 2, 2, none⟩ : Vector Nat)
      1 (some 99) true true).1) 1 = .ok 99 :=
  C8_insert_get_roundtrip Nat ⟨[10, 20], 4, 100, 2, 2, none⟩ 1 99 true true rfl rfl

/-- **C10, counterexample.**  The claim says the neutral return value
alone cannot distinguish a NULL container from a legitimately empty,
zero-capacity container; but `empty` returns `false` on NULL while the
legitimate empty container returns `true`, and `width` returns `0` on
NULL while every constructible container has nonzero width. -/
theorem C10_null_accessor_cex :
    (vector_empty (some (⟨[], 4, 100, 0, 2, none⟩ : Vector Nat))).1 = true ∧
    (vector_empty (none : Option (Vector Nat))).1 = false ∧
    (vector_width (some (⟨[], 4, 100, 0, 2, none⟩ : Vector Nat))).1 = 4 ∧
    (vector_width (none : Option (Vector Nat))).1 = 0 := by
  exact ⟨rfl, rfl, rfl, rfl⟩

/-- **C10, amended.**  Every read-only accessor called on a NULL
container reports `InvalidArgument` and returns `0` (or `false`); for
`size`, `capacity` and `full` that value coincides with the one returned
on a legitimately empty, zero-capacity container (constructed with
`width 4, limit 100, capacity 0, growth 2`), so those three return values
alone cannot distinguish the error — while `width`, `limit`,
`growth`/`increment` and `empty` can (see the counterexample). -/
theorem C10_null_accessors (α : Type) :
    vector_size (none : Option (Vector α)) = (0, some .EINVAL) ∧
    vector_width (none : Option (Vector α)) = (0, some .EINVAL) ∧
    vector_limit (none : Option (Vector α)) = (0, some .EINVAL) ∧
    vector_capacity (none : Option (Vector α)) = (0, some .EINVAL) ∧
    vector_increment (none : Option (Vector α)) = (0, some .EINVAL) ∧
    vector_empty (none : Option (Vector α)) = (false, some .EINVAL) ∧
    vector_full (none : Option (Vector α)) = (false, some .EINVAL) ∧
    stack_size (none : Option (Stack α)) = (0, some .EINVAL) ∧
    list_size (none : Option (LList α)) = (0, some .EINVAL) ∧
    (∀ hook, vector_construct α 4 100 0 2 hook true true =
      .ok ⟨[], 4, 100, 0, 2, hook⟩) ∧
    (vector_size (some (⟨[], 4, 100, 0, 2, none⟩ : Vector α))).1 =
      (vector_size (none : Option (Vector α))).1 ∧
    (vector_capacity (some (⟨[], 4, 100, 0, 2, none⟩ : Vector α))).1 =
      (vector_capacity (none : Option (Vector α))).1 ∧
    (vector_full (some (⟨[], 4, 100, 0, 2, none⟩ : Vector α))).1 =
      (vector_full (none : Option (Vector α))).1 := by
  refine ⟨rfl, rfl, rfl, rfl, rfl, rfl, rfl, rfl, rfl, ?_, rfl, rfl, ?_⟩
  · intro hook; rfl
  · simp [vector_full]

/-- **C1, counterexample.**  The claim says the LinkedSequence sort is
stable because the merge consumes the lesser-or-equal head of the first
list first, and that sorting `(1,a),(1,b),(2,c)` (payloads modelled as
`0`, `1`, `2`) by the key leaves `(1,a)` before `(1,b)`.  The merge in
fact consumes the head of the *second* list on ties (`_list_merge` takes
the first head only on a strict `< 0`), and the scenario sorts to
`[(1,b), (1,a), (2,c)]`: `(1,b)` comes out before `(1,a)`. -/
theorem C1_sort_not_stable_cex :
    list_insert (⟨[], 8, 100, none⟩ : LList (Nat × Nat)) 0 (some (1, 0)) true true =
      (⟨[(1, 0)], 8, 100, none⟩, none) ∧
    list_insert (⟨[(1, 0)], 8, 100, none⟩ : LList (Nat × Nat)) 1 (some (1, 1)) true true =
      (⟨[(1, 0), (1, 1)], 8, 100, none⟩, none) ∧
    list_insert (⟨[(1, 0), (1, 1)], 8, 100, none⟩ : LList (Nat × Nat)) 2
        (some (2, 2)) true true =
      (⟨[(1, 0), (1, 1), (2, 2)], 8, 100, none⟩, none) ∧
    (list_sort (⟨[(1, 0), (1, 1), (2, 2)], 8, 100, none⟩ : LList (Nat × Nat)) false
        (some fun p q => (p.1 : Int) - q.1)).1.data = [(1, 1), (1, 0), (2, 2)] := by
  refine ⟨rfl, rfl, rfl, ?_⟩
  simp [list_sort, _list_mergesort, _list_split, _list_splitGo, _list_merge]

/-- **C1, amended.**  The LinkedSequence sort is *not* stable: the merge
consumes the head of the first list only on a strictly negative
comparison, so on ties the head of the second (back) half is emitted
first — two records with equal keys always come out swapped — and the
`(1,a),(1,b),(2,c)` scenario yields `(1,b)` before `(1,a)`. -/
theorem C1_sort_tie_swapped (k p q : Nat) :
    _list_mergesort false (fun u v : Nat × Nat => (u.1 : Int) - v.1)
      [(k, p), (k, q)] = [(k, q), (k, p)] := by
  simp [_list_mergesort, _list_split, _list_splitGo, _list_merge]

/-- **C6, counterexample.**  The claim quantifies over *every*
comparator.  With the comparator that always returns `1` (which is not a
consistent ordering), sorting `[10, 20]` succeeds but returns `[20, 10]`,
whose adjacent-pair scan violates `compare(prev, next) ≤ 0`. -/
theorem C6_sort_unordered_cex :
    (list_sort (⟨[10, 20], 4, 100, none⟩ : LList Nat) false
        (some fun _ _ => (1 : Int))).2 = none ∧
    (list_sort (⟨[10, 20], 4, 100, none⟩ : LList Nat) false
        (some fun _ _ => (1 : Int))).1.data = [20, 10] ∧
    ¬ (list_sort (⟨[10, 20], 4, 100, none⟩ : LList Nat) false
        (some fun _ _ => (1 : Int))).1.data.Chain' (fun _ _ => (1 : Int) ≤ 0) := by
  have h2 : (list_sort (⟨[10, 20], 4, 100, none⟩ : LList Nat) false
      (some fun _ _ => (1 : Int))).1.data = [20, 10] := by
    simp [list_sort, _list_mergesort, _list_split, _list_splitGo, _list_merge]
  refine ⟨rfl, h2, ?_⟩
  rw [h2]
  simp

/-- **C6, amended.**  `list_sort` always succeeds and always returns a
permutation of the original elements; and for every comparator whose sign
is antisymmetric (i.e. that is a consistent ordering, as `qsort`-style
comparators must be — the counterexample shows some restriction is
forced), the adjacent-pair scan of the result satisfies
`compare(prev, next) ≤ 0` when `reverse` is false and
`compare(prev, next) ≥ 0` when `reverse` is true. -/
theorem C6_sort_ordered_perm (α : Type) (l : LList α) (r : Bool)
    (cmp : α → α → Int) :
    (list_sort l r (some cmp)).2 = none ∧
    ((list_sort l r (some cmp)).1.data).Perm l.data ∧
    (SignAntisym cmp →
      (r = false →
        (list_sort l r (some cmp)).1.data.Chain' (fun x y => cmp x y ≤ 0)) ∧
      (r = true →
        (list_sort l r (some cmp)).1.data.Chain' (fun x y => 0 ≤ cmp x y))) := by
  refine ⟨rfl, _list_mergesort_perm r cmp l.data, ?_⟩
  intro hA
  constructor
  · rintro rfl
    refine List.Chain'.imp ?_
      (_list_mergesort_chain hA false l.data.length l.data (le_refl _))
    intro x y hxy
    simpa using hxy
  · rintro rfl
    refine List.Chain'.imp ?_
      (_list_mergesort_chain hA true l.data.length l.data (le_refl _))
    intro x y hxy
    simp at hxy
    omega

/-- **C6, witness**: sorting `[3, 1, 2]` by the integer comparator gives
an adjacent-pair-ordered chain. -/
theorem C6_sort_ordered_perm_witness :
    (list_sort (⟨[3, 1, 2], 4, 100, none⟩ : LList Nat) false
      (some fun x y => (x : Int) - y)).1.data.Chain'
        (fun x y : Nat => (x : Int) - y ≤ 0) :=
  ((C6_sort_ordered_perm Nat ⟨[3, 1, 2], 4, 100, none⟩ false
      (fun x y => (x : Int) - y)).2.2
    (by intro x y; dsimp only; constructor <;> intro <;> omega)).1 rfl

/-! ## Lemmas about the pointer-level heap -/

/-- A live pointer is inside the heap. -/
lemma heapGet_lt {α : Type} {h : List (Option (PNode α))} {p : Ptr} {nd : PNode α}
    (hp : heapGet h p = some nd) : p < h.length := by
  unfold heapGet at hp
  match hx : h[p]? with
  | none => rw [hx] at hp; simp at hp
  | some c => obtain ⟨h1, -⟩ := List.getElem?_eq_some.mp hx; exact h1

/-- Reading the cell just written. -/
lemma heapGet_heapSet_self {α : Type} {h : List (Option (PNode α))} {p : Ptr}
    (nd : PNode α) (hp : p < h.length) : heapGet (heapSet h p nd) p = some nd := by
  unfold heapGet heapSet
  simp [List.getElem?_set_self, hp]

/-- Writing one cell does not change another. -/
lemma heapGet_heapSet_ne {α : Type} {h : List (Option (PNode α))} {p q : Ptr}
    (nd : PNode α) (hne : q ≠ p) : heapGet (heapSet h p nd) q = heapGet h q := by
  unfold heapGet heapSet
  rw [List.getElem?_set_ne (fun he => hne he.symm)]

/-- Freeing one cell does not change another. -/
lemma heapGet_heapFree_ne {α : Type} {h : List (Option (PNode α))} {p q : Ptr}
    (hne : q ≠ p) : heapGet (heapFree h p) q = heapGet h q := by
  unfold heapGet heapFree
  rw [List.getElem?_set_ne (fun he => hne he.symm)]

/-- Reading a freshly appended cell. -/
lemma heapGet_append_self {α : Type} (h : List (Option (PNode α))) (c : Option (PNode α)) :
    heapGet (h ++ [c]) h.length = c := by
  unfold heapGet
  rw [List.getElem?_append_right (le_refl _)]
  simp

/-- Appending does not change existing cells. -/
lemma heapGet_append_lt {α : Type} (h : List (Option (PNode α))) (c : Option (PNode α))
    {p : Ptr} (hp : p < h.length) : heapGet (h ++ [c]) p = heapGet h p := by
  unfold heapGet
  rw [List.getElem?_append_left hp]

/-- `setNext` leaves every other cell alone. -/
lemma heapGet_setNext_ne {α : Type} {h : List (Option (PNode α))} {p q : Ptr}
    (x : Option Ptr) (hne : q ≠ p) : heapGet (setNext h p x) q = heapGet h q := by
  unfold setNext
  match hx : heapGet h p with
  | none => rfl
  | some nd => exact heapGet_heapSet_ne _ hne

/-- `setNext` on a live cell overwrites only its `next`. -/
lemma heapGet_setNext_self {α : Type} {h : List (Option (PNode α))} {p : Ptr}
    {nd : PNode α} (x : Option Ptr) (hp : heapGet h p = some nd) :
    heapGet (setNext h p x) p = some { nd with next := x } := by
  unfold setNext
  rw [hp]
  exact heapGet_heapSet_self _ (heapGet_lt hp)

/-- `setPrev` leaves every other cell alone. -/
lemma heapGet_setPrev_ne {α : Type} {h : List (Option (PNode α))} {p q : Ptr}
    (x : Option Ptr) (hne : q ≠ p) : heapGet (setPrev h p x) q = heapGet h q := by
  unfold setPrev
  match hx : heapGet h p with
  | none => rfl
  | some nd => exact heapGet_heapSet_ne _ hne

/-- `setPrev` on a live cell overwrites only its `previous`. -/
lemma heapGet_setPrev_self {α : Type} {h : List (Option (PNode α))} {p : Ptr}
    {nd : PNode α} (x : Option Ptr) (hp : heapGet h p = some nd) :
    heapGet (setPrev h p x) p = some { nd with previous := x } := by
  unfold setPrev
  rw [hp]
  exact heapGet_heapSet_self _ (heapGet_lt hp)

/-- `setNext` on a dead cell is a no-op. -/
lemma setNext_none {α : Type} {h : List (Option (PNode α))} {p : Ptr}
    (x : Option Ptr) (hx : heapGet h p = none) : setNext h p x = h := by
  unfold setNext
  rw [hx]

/-- `setNext` on a live cell is a `heapSet`. -/
lemma setNext_some {α : Type} {h : List (Option (PNode α))} {p : Ptr} {nd : PNode α}
    (x : Option Ptr) (hx : heapGet h p = some nd) :
    setNext h p x = heapSet h p { nd with next := x } := by
  unfold setNext
  rw [hx]

/-- `setPrev` on a dead cell is a no-op. -/
lemma setPrev_none {α : Type} {h : List (Option (PNode α))} {p : Ptr}
    (x : Option Ptr) (hx : heapGet h p = none) : setPrev h p x = h := by
  unfold setPrev
  rw [hx]

/-- `setPrev` on a live cell is a `heapSet`. -/
lemma setPrev_some {α : Type} {h : List (Option (PNode α))} {p : Ptr} {nd : PNode α}
    (x : Option Ptr) (hx : heapGet h p = some nd) :
    setPrev h p x = heapSet h p { nd with previous := x } := by
  unfold setPrev
  rw [hx]

/-- `setNext` preserves the `previous` view of every cell. -/
lemma prevView_setNext {α : Type} (h : List (Option (PNode α))) (p q : Ptr)
    (x : Option Ptr) :
    (heapGet (setNext h p x) q).map (·.previous) = (heapGet h q).map (·.previous) := by
  match hx : heapGet h p with
  | none => rw [setNext_none x hx]
  | some nd =>
    rw [setNext_some x hx]
    by_cases hq : q = p
    · subst hq
      rw [heapGet_heapSet_self _ (heapGet_lt hx), hx]
      rfl
    · rw [heapGet_heapSet_ne _ hq]

/-- `setPrev` preserves the `next` view of every cell. -/
lemma nextView_setPrev {α : Type} (h : List (Option (PNode α))) (p q : Ptr)
    (x : Option Ptr) :
    (heapGet (setPrev h p x) q).map (·.next) = (heapGet h q).map (·.next) := by
  match hx : heapGet h p with
  | none => rw [setPrev_none x hx]
  | some nd =>
    rw [setPrev_some x hx]
    by_cases hq : q = p
    · subst hq
      rw [heapGet_heapSet_self _ (heapGet_lt hx), hx]
      rfl
    · rw [heapGet_heapSet_ne _ hq]

/-- `setValue` on a dead cell is a no-op. -/
lemma setValue_none {α : Type} {h : List (Option (PNode α))} {p : Ptr}
    (v : α) (hx : heapGet h p = none) : setValue h p v = h := by
  unfold setValue
  rw [hx]

/-- `setValue` on a live cell is a `heapSet`. -/
lemma setValue_some {α : Type} {h : List (Option (PNode α))} {p : Ptr} {nd : PNode α}
    (v : α) (hx : heapGet h p = some nd) :
    setValue h p v = heapSet h p { nd with value := v } := by
  unfold setValue
  rw [hx]

/-- `setValue` preserves both link views of every cell. -/
lemma linkViews_setValue {α : Type} (h : List (Option (PNode α))) (p q : Ptr) (v : α) :
    (heapGet (setValue h p v) q).map (·.next) = (heapGet h q).map (·.next) ∧
    (heapGet (setValue h p v) q).map (·.previous) = (heapGet h q).map (·.previous) := by
  match hx : heapGet h p with
  | none => rw [setValue_none v hx]; exact ⟨rfl, rfl⟩
  | some nd =>
    rw [setValue_some v hx]
    by_cases hq : q = p
    · subst hq
      rw [heapGet_heapSet_self _ (heapGet_lt hx), hx]
      exact ⟨rfl, rfl⟩
    · rw [heapGet_heapSet_ne _ hq]
      exact ⟨rfl, rfl⟩

/-- The heap length is invariant under `setNext`. -/
lemma length_setNext {α : Type} (h : List (Option (PNode α))) (p : Ptr) (x : Option Ptr) :
    (setNext h p x).length = h.length := by
  match hx : heapGet h p with
  | none => rw [setNext_none x hx]
  | some nd => rw [setNext_some x hx]; exact List.length_set h p _

/-- The heap length is invariant under `setPrev`. -/
lemma length_setPrev {α : Type} (h : List (Option (PNode α))) (p : Ptr) (x : Option Ptr) :
    (setPrev h p x).length = h.length := by
  match hx : heapGet h p with
  | none => rw [setPrev_none x hx]
  | some nd => rw [setPrev_some x hx]; exact List.length_set h p _

/-! ## Lemmas about the chain predicates -/

/-- `nextChainOK`, element-wise. -/
lemma nextChainOK_iff {α : Type} (h : List (Option (PNode α))) (ps : List Ptr) :
    nextChainOK h ps ↔
      ∀ i p, ps[i]? = some p → ∃ nd, heapGet h p = some nd ∧ nd.next = ps[i + 1]? := by
  induction ps with
  | nil => simp [nextChainOK]
  | cons q rest ih =>
    unfold nextChainOK
    rw [ih]
    constructor
    · rintro ⟨⟨nd, hnd, hnx⟩, hrest⟩ i p hp
      match i with
      | 0 =>
        simp at hp
        subst hp
        exact ⟨nd, hnd, by rw [hnx, List.head?_eq_getElem?]; simp⟩
      | i + 1 =>
        simp only [List.getElem?_cons_succ] at hp ⊢
        exact hrest i p hp
    · intro hall
      refine ⟨?_, ?_⟩
      · obtain ⟨nd, hnd, hnx⟩ := hall 0 q (by simp)
        exact ⟨nd, hnd, by rw [hnx, List.head?_eq_getElem?]; simp⟩
      · intro i p hp
        have := hall (i + 1) p (by simpa using hp)
        simpa using this

/-- `prevLinksOK`, element-wise. -/
lemma prevLinksOK_iff {α : Type} (h : List (Option (PNode α))) (pr : Option Ptr)
    (ps : List Ptr) :
    prevLinksOK h pr ps ↔
      ∀ i p, ps[i]? = some p → ∃ nd, heapGet h p = some nd ∧
        nd.previous = (match i with | 0 => pr | j + 1 => ps[j]?) := by
  induction ps generalizing pr with
  | nil => simp [prevLinksOK]
  | cons q rest ih =>
    unfold prevLinksOK
    rw [ih]
    constructor
    · rintro ⟨⟨nd, hnd, hpv⟩, hrest⟩ i p hp
      match i with
      | 0 =>
        simp at hp
        subst hp
        exact ⟨nd, hnd, hpv⟩
      | i + 1 =>
        simp only [List.getElem?_cons_succ] at hp
        obtain ⟨nd2, hnd2, hpv2⟩ := hrest i p hp
        refine ⟨nd2, hnd2, ?_⟩
        match i with
        | 0 => simpa using hpv2
        | j + 1 => simpa using hpv2
    · intro hall
      refine ⟨?_, ?_⟩
      · obtain ⟨nd, hnd, hpv⟩ := hall 0 q (by simp)
        exact ⟨nd, hnd, hpv⟩
      · intro i p hp
        obtain ⟨nd, hnd, hpv⟩ := hall (i + 1) p (by simpa using hp)
        refine ⟨nd, hnd, ?_⟩
        match i with
        | 0 => simpa using hpv
        | j + 1 => simpa using hpv

/-- Chains only mention live pointers. -/
lemma nextChainOK_mem_lt {α : Type} {h : List (Option (PNode α))} {ps : List Ptr}
    (hc : nextChainOK h ps) : ∀ p ∈ ps, p < h.length := by
  intro p hp
  obtain ⟨i, hi, hgi⟩ := List.getElem_of_mem hp
  obtain ⟨nd, hnd, -⟩ := (nextChainOK_iff h ps).mp hc i p
    (by rw [List.getElem?_eq_getElem hi]; rw [hgi])
  exact heapGet_lt hnd

/-- A duplicate-free chain is no longer than the heap. -/
lemma nextChainOK_length_le {α : Type} {h : List (Option (PNode α))} {ps : List Ptr}
    (hc : nextChainOK h ps) (hnd : ps.Nodup) : ps.length ≤ h.length := by
  have hsub : ps.toFinset ⊆ Finset.range h.length := by
    intro p hp
    rw [List.mem_toFinset] at hp
    rw [Finset.mem_range]
    exact nextChainOK_mem_lt hc p hp
  calc ps.length = ps.toFinset.card := (List.toFinset_card_of_nodup hnd).symm
    _ ≤ (Finset.range h.length).card := Finset.card_le_card hsub
    _ = h.length := Finset.card_range _

/-- `nextChainOK` only depends on the `next` views of the chain's cells. -/
lemma nextChainOK_congr {α : Type} {h1 h2 : List (Option (PNode α))} {ps : List Ptr}
    (hv : ∀ p ∈ ps, (heapGet h2 p).map (·.next) = (heapGet h1 p).map (·.next))
    (hc : nextChainOK h1 ps) : nextChainOK h2 ps := by
  rw [nextChainOK_iff] at hc ⊢
  intro i p hp
  obtain ⟨nd, hnd, hnx⟩ := hc i p hp
  have hview := hv p (by exact List.getElem?_mem hp)
  rw [hnd] at hview
  match hx : heapGet h2 p with
  | none => rw [hx] at hview; simp at hview
  | some nd2 =>
    rw [hx] at hview
    simp at hview
    exact ⟨nd2, rfl, by rw [hview, hnx]⟩

/-- `prevLinksOK` only depends on the `previous` views of the chain's cells. -/
lemma prevLinksOK_congr {α : Type} {h1 h2 : List (Option (PNode α))} {pr : Option Ptr}
    {ps : List Ptr}
    (hv : ∀ p ∈ ps, (heapGet h2 p).map (·.previous) = (heapGet h1 p).map (·.previous))
    (hc : prevLinksOK h1 pr ps) : prevLinksOK h2 pr ps := by
  rw [prevLinksOK_iff] at hc ⊢
  intro i p hp
  obtain ⟨nd, hnd, hpv⟩ := hc i p hp
  have hview := hv p (by exact List.getElem?_mem hp)
  rw [hnd] at hview
  match hx : heapGet h2 p with
  | none => rw [hx] at hview; simp at hview
  | some nd2 =>
    rw [hx] at hview
    simp at hview
    exact ⟨nd2, rfl, by rw [hview, hpv]⟩

/-- Chain element equal at two positions means equal positions. -/
lemma nodup_getElem?_inj {ps : List Ptr} (hn : ps.Nodup) {i j : Nat} {x : Ptr}
    (hi : ps[i]? = some x) (hj : ps[j]? = some x) : i = j :=
  List.getElem?_inj (List.getElem?_eq_some.mp hi).1 hn (hi.trans hj.symm)

/-- Full-cell agreement implies chain agreement. -/
lemma nextChainOK_of_eq {α : Type} {h1 h2 : List (Option (PNode α))} {ps : List Ptr}
    (hv : ∀ p ∈ ps, heapGet h2 p = heapGet h1 p) (hc : nextChainOK h1 ps) :
    nextChainOK h2 ps :=
  nextChainOK_congr (fun p hp => by rw [hv p hp]) hc

/-- Full-cell agreement implies backward-link agreement. -/
lemma prevLinksOK_of_eq {α : Type} {h1 h2 : List (Option (PNode α))} {pr : Option Ptr}
    {ps : List Ptr} (hv : ∀ p ∈ ps, heapGet h2 p = heapGet h1 p)
    (hc : prevLinksOK h1 pr ps) : prevLinksOK h2 pr ps :=
  prevLinksOK_congr (fun p hp => by rw [hv p hp]) hc

/-- Walking `next` from NULL stays at NULL. -/
lemma walkNext_none {α : Type} (h : List (Option (PNode α))) :
    ∀ k, walkNext h k none = none := by
  intro k
  induction k with
  | zero => rfl
  | succ k ih => rw [walkNext]; exact ih

/-- Walking `next` from the front of a chain lands on the indexed node. -/
lemma walkNext_chain {α : Type} {h : List (Option (PNode α))} :
    ∀ (k : Nat) (ps : List Ptr), nextChainOK h ps →
      walkNext h k ps.head? = ps[k]? := by
  intro k
  induction k with
  | zero =>
    intro ps _
    cases ps with
    | nil => rfl
    | cons p rest => simp [walkNext]
  | succ k ih =>
    intro ps hc
    rw [walkNext]
    cases ps with
    | nil => simpa using walkNext_none h k
    | cons p rest =>
      obtain ⟨⟨nd, hnd, hnx⟩, hrest⟩ := hc
      have hstep : ((some p).bind fun q => (heapGet h q).bind (·.next)) = rest.head? := by
        simp [hnd, hnx]
      simp only [List.head?_cons]
      rw [hstep, ih rest hrest]
      simp

/-- Walking `previous` from NULL stays at NULL. -/
lemma walkPrev_none {α : Type} (h : List (Option (PNode α))) :
    ∀ k, walkPrev h k none = none := by
  intro k
  induction k with
  | zero => rfl
  | succ k ih => rw [walkPrev]; exact ih

/-- Walking `previous` from a chain node lands on the indexed node. -/
lemma walkPrev_chain {α : Type} {h : List (Option (PNode α))} {ps : List Ptr}
    (hc : prevLinksOK h none ps) :
    ∀ (k i : Nat) (p : Ptr), k ≤ i → ps[i]? = some p →
      walkPrev h k (some p) = ps[i - k]? := by
  intro k
  induction k with
  | zero =>
    intro i p _ hp
    simpa using hp.symm
  | succ k ih =>
    intro i p hk hp
    rw [walkPrev]
    obtain ⟨nd, hnd, hpv⟩ := (prevLinksOK_iff h none ps).mp hc i p hp
    match i, hk with
    | j + 1, hk =>
      have hj : j < ps.length := by
        have := (List.getElem?_eq_some.mp hp).1
        omega
      obtain ⟨p2, hp2⟩ : ∃ p2, ps[j]? = some p2 :=
        ⟨ps[j], List.getElem?_eq_getElem hj⟩
      have hstep : ((some p).bind fun q => (heapGet h q).bind (·.previous)) = some p2 := by
        simp [hnd]
        rw [hpv]
        exact hp2
      rw [hstep, ih j p2 (by omega) hp2]
      congr 1
      omega

/-- `_node_search` returns the pointer at the requested position of the
chain. -/
lemma pnode_search_spec {α : Type} {l : PList α} {ps : List Ptr}
    (hsz : l.size = ps.length) (hf : l.front = ps.head?) (hb : l.back = ps.getLast?)
    (hnc : nextChainOK l.heap ps) (hpl : prevLinksOK l.heap none ps)
    {index : Nat} (hidx : index < l.size) :
    pnode_search l index = ps[index]? := by
  unfold pnode_search
  rw [if_neg (by omega)]
  split
  · rw [hf, walkNext_chain index ps hnc]
  · have hlen : 1 ≤ ps.length := by omega
    have hlast : ps.getLast? = ps[ps.length - 1]? := List.getLast?_eq_getElem? ps
    obtain ⟨b, hbp⟩ : ∃ b, ps[ps.length - 1]? = some b :=
      ⟨ps[ps.length - 1], List.getElem?_eq_getElem (by omega)⟩
    rw [hb, hlast, hbp]
    rw [walkPrev_chain hpl (l.size - index - 1) (ps.length - 1) b (by omega) hbp]
    congr 1
    omega

/-- The claim's emptiness agreement: under the structural invariant,
`front == NULL ⇔ back == NULL ⇔ count == 0`. -/
lemma PList.WF.front_back_size {α : Type} {l : PList α} (hw : l.WF) :
    (l.front = none ↔ l.size = 0) ∧ (l.back = none ↔ l.size = 0) := by
  obtain ⟨ps, hnd, hsz, hf, hb, -, -⟩ := hw
  constructor
  · rw [hf, hsz]
    cases ps <;> simp
  · rw [hb, hsz, List.getLast?_eq_getElem?]
    cases ps with
    | nil => simp
    | cons p rest =>
      have hlt : rest.length < (p :: rest).length := by simp
      rw [show (p :: rest).length - 1 = rest.length by simp]
      simp [List.getElem?_eq_getElem hlt]

set_option maxHeartbeats 1600000 in
/-- `list_insert` at pointer level: a failing call leaves the list
untouched; a successful call preserves the structural invariant. -/
lemma plist_insert_wf {α : Type} (l : PList α) (index : Nat) (value : Option α)
    (na va : Bool) (hw : l.WF) :
    ((plist_insert l index value na va).2 ≠ none →
      (plist_insert l index value na va).1 = l) ∧
    ((plist_insert l index value na va).2 = none →
      (plist_insert l index value na va).1.WF) := by
  obtain ⟨ps, hnd, hsz, hf, hb, hnc, hpl⟩ := hw
  simp only [plist_insert]
  match value with
  | none => exact ⟨fun _ => rfl, by simp⟩
  | some val =>
    dsimp only
    split
    · exact ⟨fun _ => rfl, by simp⟩
    · rename_i hidx
      split
      · exact ⟨fun _ => rfl, by simp⟩
      · rename_i hfull
        match hpv : _pnode_value l na va val with
        | none => exact ⟨fun _ => rfl, by simp⟩
        | some stored =>
          dsimp only
          have hmemlt : ∀ p ∈ ps, p < l.heap.length := nextChainOK_mem_lt hnc
          have hqmem : l.heap.length ∉ ps := fun hm => lt_irrefl _ (hmemlt _ hm)
          have hget0 : ∀ p ∈ ps,
              heapGet (l.heap ++ [some ⟨stored, none, none⟩]) p = heapGet l.heap p :=
            fun p hp => heapGet_append_lt _ _ (hmemlt p hp)
          have hq0 : heapGet (l.heap ++ [some ⟨stored, none, none⟩]) l.heap.length =
              some ⟨stored, none, none⟩ := heapGet_append_self _ _
          have hnc0 : nextChainOK (l.heap ++ [some ⟨stored, none, none⟩]) ps :=
            nextChainOK_of_eq hget0 hnc
          have hpl0 : prevLinksOK (l.heap ++ [some ⟨stored, none, none⟩]) none ps :=
            prevLinksOK_of_eq hget0 hpl
          match hcps : ps with
          | [] =>
            have hfront : l.front = none := by rw [hf, hcps]; rfl
            rw [if_pos hfront]
            refine ⟨by simp, fun _ => ?_⟩
            refine ⟨[l.heap.length], by simp, ?_, rfl, ?_, ?_, ?_⟩
            · rw [hcps] at hsz
              simp at hsz
              simp [hsz]
            · rfl
            · exact ⟨⟨⟨stored, none, none⟩, hq0, rfl⟩, trivial⟩
            · exact ⟨⟨⟨stored, none, none⟩, hq0, rfl⟩, trivial⟩
          | f0 :: rest =>
            have hfront : l.front = some f0 := by rw [hf, hcps]; rfl
            rw [if_neg (by rw [hfront]; simp)]
            have hlen1 : 1 ≤ ps.length := by rw [hcps]; simp
            split
            · -- index = 0: prepend
              rename_i hi0
              rw [hfront]
              dsimp only
              refine ⟨by simp, fun _ => ?_⟩
              have hf0mem : f0 ∈ ps := by rw [hcps]; exact List.mem_cons_self f0 rest
              have hf0lt : f0 < l.heap.length := hmemlt f0 hf0mem
              have hf0q : f0 ≠ l.heap.length := Nat.ne_of_lt hf0lt
              -- the new node's cell after both writes
              have hq1 : heapGet (setNext (l.heap ++ [some ⟨stored, none, none⟩])
                  l.heap.length (some f0)) l.heap.length =
                  some ⟨stored, some f0, none⟩ := by
                rw [heapGet_setNext_self (some f0) hq0]
              have hq2 : heapGet (setPrev (setNext (l.heap ++ [some ⟨stored, none, none⟩])
                  l.heap.length (some f0)) f0 (some l.heap.length)) l.heap.length =
                  some ⟨stored, some f0, none⟩ := by
                rw [heapGet_setPrev_ne _ (Nat.ne_of_lt hf0lt).symm, hq1]
              -- f0's cell keeps its next, gains previous = new
              obtain ⟨ndf, hndf, hndfnx⟩ : ∃ nd,
                  heapGet (l.heap ++ [some ⟨stored, none, none⟩]) f0 = some nd ∧
                    nd.next = ps[1]? := by
                obtain ⟨nd, h1, h2⟩ := (nextChainOK_iff _ ps).mp hnc0 0 f0
                  (by rw [hcps]; simp)
                exact ⟨nd, h1, h2⟩
              have hndf1 : heapGet (setNext (l.heap ++ [some ⟨stored, none, none⟩])
                  l.heap.length (some f0)) f0 = some ndf := by
                rw [heapGet_setNext_ne _ hf0q, hndf]
              have hndf2 : heapGet (setPrev (setNext (l.heap ++ [some ⟨stored, none, none⟩])
                  l.heap.length (some f0)) f0 (some l.heap.length)) f0 =
                  some { ndf with previous := some l.heap.length } := by
                rw [heapGet_setPrev_self _ hndf1]
              -- all other chain cells are untouched
              have hrest2 : ∀ p ∈ ps, p ≠ f0 →
                  heapGet (setPrev (setNext (l.heap ++ [some ⟨stored, none, none⟩])
                    l.heap.length (some f0)) f0 (some l.heap.length)) p =
                    heapGet (l.heap ++ [some ⟨stored, none, none⟩]) p := by
                intro p hp hpf
                rw [heapGet_setPrev_ne _ hpf,
                  heapGet_setNext_ne _ (by intro he; exact hqmem (he ▸ hp))]
              refine ⟨l.heap.length :: ps, ?_, ?_, ?_, ?_, ?_, ?_⟩
              · exact List.nodup_cons.mpr ⟨hqmem, hnd⟩
              · simp [hsz]
              · rfl
              · show l.back = (l.heap.length :: ps).getLast?
                rw [hb, hcps, List.getLast?_cons_cons]
              · -- forward links
                refine ⟨⟨⟨stored, some f0, none⟩, hq2, ?_⟩, ?_⟩
                · rw [hcps]; rfl
                · refine nextChainOK_congr ?_ hnc0
                  intro p hp
                  by_cases hpf : p = f0
                  · subst hpf
                    rw [hndf2, hndf]
                    rfl
                  · rw [hrest2 p hp hpf]
              · -- backward links
                refine ⟨⟨⟨stored, some f0, none⟩, hq2, rfl⟩, ?_⟩
                rw [hcps]
                refine ⟨⟨{ ndf with previous := some l.heap.length }, ?_, rfl⟩, ?_⟩
                · exact hndf2
                · -- the tail keeps its backward links
                  have hplrest : prevLinksOK (l.heap ++ [some ⟨stored, none, none⟩])
                      (some f0) rest := by
                    have := hpl0
                    rw [hcps] at this
                    exact this.2
                  refine prevLinksOK_congr ?_ hplrest
                  intro p hp
                  have hpmem : p ∈ ps := by rw [hcps]; exact List.mem_cons_of_mem _ hp
                  have hpf : p ≠ f0 := by
                    intro he
                    subst he
                    rw [hcps] at hnd
                    exact (List.nodup_cons.mp hnd).1 hp
                  rw [hrest2 p hpmem hpf]
            · -- index = size (append) or interior: placeholder split
              rename_i hi0
              split
              · rename_i hiN
                obtain ⟨b, hbs⟩ : ∃ b, ps[ps.length - 1]? = some b :=
                  ⟨_, List.getElem?_eq_getElem (by omega)⟩
                have hbl : l.back = some b := by
                  rw [hb, List.getLast?_eq_getElem?, hbs]
                rw [hbl]
                dsimp only
                refine ⟨by simp, fun _ => ?_⟩
                have hbmem : b ∈ ps := List.getElem?_mem hbs
                have hblt : b < l.heap.length := hmemlt b hbmem
                have hbq : b ≠ l.heap.length := Nat.ne_of_lt hblt
                set h0 := l.heap ++ [some (⟨stored, none, none⟩ : PNode α)] with hh0
                set h1 := setPrev h0 l.heap.length (some b) with hh1
                set h2 := setNext h1 b (some l.heap.length) with hh2
                have hq1 : heapGet h1 l.heap.length = some ⟨stored, none, some b⟩ :=
                  heapGet_setPrev_self _ hq0
                have hq2 : heapGet h2 l.heap.length = some ⟨stored, none, some b⟩ := by
                  rw [hh2, heapGet_setNext_ne _ hbq.symm, hq1]
                obtain ⟨ndb, hndb, hndbn⟩ :=
                  (nextChainOK_iff _ ps).mp hnc0 (ps.length - 1) b hbs
                have hndb1 : heapGet h1 b = some ndb := by
                  rw [hh1, heapGet_setPrev_ne _ hbq, hndb]
                have hndb2 : heapGet h2 b = some { ndb with next := some l.heap.length } :=
                  heapGet_setNext_self _ hndb1
                have hother : ∀ p ∈ ps, p ≠ b → heapGet h2 p = heapGet h0 p := by
                  intro p hp hpb
                  rw [hh2, heapGet_setNext_ne _ hpb, hh1,
                    heapGet_setPrev_ne _ (fun he => hqmem (by rw [← he]; exact hp))]
                refine ⟨ps ++ [l.heap.length], ?_, ?_, ?_, ?_, ?_, ?_⟩
                · refine hnd.append (by simp) ?_
                  intro a ha hb2
                  simp at hb2
                  subst hb2
                  exact hqmem ha
                · simp [hsz]
                · show l.front = (ps ++ [l.heap.length]).head?
                  rw [hfront, hcps]
                  simp
                · show some l.heap.length = (ps ++ [l.heap.length]).getLast?
                  rw [List.getLast?_concat]
                · rw [nextChainOK_iff]
                  intro i p hp
                  by_cases hi : i < ps.length
                  · rw [List.getElem?_append_left hi] at hp
                    by_cases hib : i = ps.length - 1
                    · subst hib
                      have hpb : p = b := by
                        rw [hp] at hbs
                        exact Option.some_injective _ hbs
                      subst hpb
                      refine ⟨{ ndb with next := some l.heap.length }, hndb2, ?_⟩
                      rw [show ps.length - 1 + 1 = ps.length by omega,
                        List.getElem?_append_right (le_refl _)]
                      simp
                    · have hpb : p ≠ b := fun he =>
                        hib (nodup_getElem?_inj hnd (he ▸ hp) hbs)
                      obtain ⟨nd, hnd2, hnx⟩ := (nextChainOK_iff _ ps).mp hnc0 i p hp
                      refine ⟨nd, by rw [hother p (List.getElem?_mem hp) hpb, hnd2], ?_⟩
                      rw [hnx, List.getElem?_append_left (by omega)]
                  · have hile : ps.length ≤ i := by omega
                    rw [List.getElem?_append_right hile] at hp
                    have hi0' : i - ps.length = 0 := by
                      by_contra h00
                      rw [List.getElem?_eq_none (by simp; omega)] at hp
                      simp at hp
                    rw [hi0'] at hp
                    simp at hp
                    subst hp
                    refine ⟨⟨stored, none, some b⟩, hq2, ?_⟩
                    rw [List.getElem?_eq_none (by simp; omega)]
                · rw [prevLinksOK_iff]
                  have hview : ∀ p ∈ ps,
                      (heapGet h2 p).map (·.previous) = (heapGet h0 p).map (·.previous) := by
                    intro p hp
                    by_cases hpb : p = b
                    · subst hpb
                      rw [hndb2, hndb]
                      rfl
                    · rw [hother p hp hpb]
                  intro i p hp
                  by_cases hi : i < ps.length
                  · rw [List.getElem?_append_left hi] at hp
                    obtain ⟨nd, hnd2, hpv2⟩ := (prevLinksOK_iff _ none ps).mp hpl0 i p hp
                    have hv := hview p (List.getElem?_mem hp)
                    rw [hnd2] at hv
                    match hx : heapGet h2 p with
                    | none => rw [hx] at hv; simp at hv
                    | some nd3 =>
                      rw [hx] at hv
                      simp at hv
                      refine ⟨nd3, rfl, ?_⟩
                      rw [hv, hpv2]
                      cases i with
                      | zero => rfl
                      | succ j =>
                        show ps[j]? = (ps ++ [l.heap.length])[j]?
                        rw [List.getElem?_append_left (by omega)]
                  · have hile : ps.length ≤ i := by omega
                    rw [List.getElem?_append_right hile] at hp
                    have hi0' : i - ps.length = 0 := by
                      by_contra h00
                      rw [List.getElem?_eq_none (by simp; omega)] at hp
                      simp at hp
                    rw [hi0'] at hp
                    simp at hp
                    subst hp
                    refine ⟨⟨stored, none, some b⟩, hq2, ?_⟩
                    have hieq : i = ps.length := by omega
                    cases i with
                    | zero => exfalso; omega
                    | succ j =>
                      show some b = (ps ++ [l.heap.length])[j]?
                      rw [List.getElem?_append_left (by omega),
                        show j = ps.length - 1 by omega, hbs]
              · rename_i hiN
                have hidxlt : index < l.size := by omega
                have hidxlen : index < ps.length := by omega
                have hidx1 : 1 ≤ index := by
                  rcases Nat.eq_zero_or_pos index with h00 | h00
                  · exact absurd h00 hi0
                  · exact h00
                have hsrch : pnode_search l index = ps[index]? :=
                  pnode_search_spec hsz hf hb hnc hpl hidxlt
                obtain ⟨node, hnode⟩ : ∃ node, ps[index]? = some node :=
                  ⟨_, List.getElem?_eq_getElem (by omega)⟩
                rw [hsrch, hnode]
                dsimp only
                obtain ⟨ndn, hndn, hndnx⟩ :=
                  (nextChainOK_iff _ ps).mp hnc0 index node hnode
                obtain ⟨ndn2, hndn2, hndn2p⟩ :=
                  (prevLinksOK_iff _ none ps).mp hpl0 index node hnode
                have hnd2eq : ndn2 = ndn := by
                  rw [hndn] at hndn2
                  exact (Option.some_injective _ hndn2).symm
                rw [hnd2eq] at hndn2p
                have hprev : ndn.previous = ps[index - 1]? := by
                  cases index with
                  | zero => exact absurd rfl hi0
                  | succ j => simpa using hndn2p
                obtain ⟨pp, hpp⟩ : ∃ pp, ps[index - 1]? = some pp :=
                  ⟨_, List.getElem?_eq_getElem (by omega)⟩
                have hprevp : ((heapGet (l.heap ++ [some ⟨stored, none, none⟩]) node).bind
                    fun x => x.previous) = some pp := by
                  rw [hndn]
                  show ndn.previous = some pp
                  rw [hprev, hpp]
                rw [hprevp]
                dsimp only
                refine ⟨by simp, fun _ => ?_⟩
                have hnodemem : node ∈ ps := List.getElem?_mem hnode
                have hppmem : pp ∈ ps := List.getElem?_mem hpp
                have hnodeq : node ≠ l.heap.length := Nat.ne_of_lt (hmemlt _ hnodemem)
                have hppq : pp ≠ l.heap.length := Nat.ne_of_lt (hmemlt _ hppmem)
                have hppnode : pp ≠ node := by
                  intro he
                  have := nodup_getElem?_inj hnd (he ▸ hpp) hnode
                  omega
                set h0 := l.heap ++ [some (⟨stored, none, none⟩ : PNode α)] with hh0
                set h1 := setPrev h0 l.heap.length (some pp) with hh1
                set h2 := setNext h1 l.heap.length (some node) with hh2
                set h3 := setNext h2 pp (some l.heap.length) with hh3
                set h4 := setPrev h3 node (some l.heap.length) with hh4
                have hq1 : heapGet h1 l.heap.length = some ⟨stored, none, some pp⟩ :=
                  heapGet_setPrev_self _ hq0
                have hq2 : heapGet h2 l.heap.length = some ⟨stored, some node, some pp⟩ :=
                  heapGet_setNext_self _ hq1
                have hq4 : heapGet h4 l.heap.length = some ⟨stored, some node, some pp⟩ := by
                  rw [hh4, heapGet_setPrev_ne _ hnodeq.symm, hh3,
                    heapGet_setNext_ne _ hppq.symm, hq2]
                obtain ⟨ndpp, hndpp, hndppx⟩ :=
                  (nextChainOK_iff _ ps).mp hnc0 (index - 1) pp hpp
                have hpp3 : heapGet h3 pp = some { ndpp with next := some l.heap.length } := by
                  rw [hh3]
                  have : heapGet h2 pp = some ndpp := by
                    rw [hh2, heapGet_setNext_ne _ hppq, hh1, heapGet_setPrev_ne _ hppq,
                      hndpp]
                  rw [heapGet_setNext_self _ this]
                have hpp4 : heapGet h4 pp = some { ndpp with next := some l.heap.length } := by
                  rw [hh4, heapGet_setPrev_ne _ hppnode, hpp3]
                have hnode3 : heapGet h3 node = some ndn := by
                  rw [hh3, heapGet_setNext_ne _ hppnode.symm, hh2,
                    heapGet_setNext_ne _ hnodeq, hh1, heapGet_setPrev_ne _ hnodeq, hndn]
                have hnode4 : heapGet h4 node =
                    some { ndn with previous := some l.heap.length } := by
                  rw [hh4, heapGet_setPrev_self _ hnode3]
                have hother : ∀ p ∈ ps, p ≠ pp → p ≠ node → heapGet h4 p = heapGet h0 p := by
                  intro p hp hp1 hp2
                  have hpq : p ≠ l.heap.length := Nat.ne_of_lt (hmemlt _ hp)
                  rw [hh4, heapGet_setPrev_ne _ hp2, hh3, heapGet_setNext_ne _ hp1, hh2,
                    heapGet_setNext_ne _ hpq, hh1, heapGet_setPrev_ne _ hpq]
                have hother0 : ∀ p ∈ ps, heapGet h0 p = heapGet l.heap p := hget0
                have htklen : (ps.take index).length = index := by
                  simp [Nat.min_eq_left (le_of_lt hidxlen)]
                have hqs_lt : ∀ i, i < index →
                    (ps.take index ++ l.heap.length :: ps.drop index)[i]? = ps[i]? := by
                  intro i hi
                  rw [List.getElem?_append_left (by omega), List.getElem?_take]
                  rw [if_pos hi]
                have hqs_eq : (ps.take index ++ l.heap.length :: ps.drop index)[index]? =
                    some l.heap.length := by
                  rw [List.getElem?_append_right (by omega), htklen]
                  simp
                have hqs_gt : ∀ i, index < i →
                    (ps.take index ++ l.heap.length :: ps.drop index)[i]? = ps[i - 1]? := by
                  intro i hi
                  rw [List.getElem?_append_right (by omega), htklen]
                  match i, hi with
                  | i + 1, hi =>
                    rw [show i + 1 - index = (i - index) + 1 by omega]
                    rw [List.getElem?_cons_succ, List.getElem?_drop]
                    congr 1
                    omega
                have hnodeidx : ∀ i, ps[i]? = some node → i = index := fun i hi =>
                  nodup_getElem?_inj hnd hi hnode
                have hppidx : ∀ i, ps[i]? = some pp → i = index - 1 := fun i hi =>
                  nodup_getElem?_inj hnd hi hpp
                refine ⟨ps.take index ++ l.heap.length :: ps.drop index, ?_, ?_, ?_, ?_, ?_, ?_⟩
                · have hqsperm : (ps.take index ++ l.heap.length :: ps.drop index).Perm
                      (l.heap.length :: ps) := by
                    conv_rhs => rw [← List.take_append_drop index ps]
                    exact List.perm_middle
                  exact hqsperm.nodup_iff.mpr (List.nodup_cons.mpr ⟨hqmem, hnd⟩)
                · simp
                  omega
                · show l.front = _
                  rw [hfront, List.head?_eq_getElem?, hqs_lt 0 (by omega),
                    ← List.head?_eq_getElem?, hcps]
                  rfl
                · show l.back = _
                  rw [hb, List.getLast?_eq_getElem?, List.getLast?_eq_getElem?]
                  have hlq : (ps.take index ++ l.heap.length :: ps.drop index).length =
                      ps.length + 1 := by simp; omega
                  rw [hlq, show ps.length + 1 - 1 = ps.length by omega,
                    hqs_gt ps.length (by omega)]
                · rw [nextChainOK_iff]
                  intro i p hp
                  have hilen : i < ps.length + 1 := by
                    by_contra hc
                    rw [List.getElem?_eq_none (by simp; omega)] at hp
                    simp at hp
                  rcases Nat.lt_trichotomy i index with hi | hi | hi
                  · rw [hqs_lt i hi] at hp
                    by_cases hipp : i = index - 1
                    · subst hipp
                      have : p = pp := by
                        rw [hp] at hpp
                        exact Option.some_injective _ hpp
                      subst this
                      refine ⟨{ ndpp with next := some l.heap.length }, hpp4, ?_⟩
                      show some l.heap.length = _
                      rw [show index - 1 + 1 = index by omega, hqs_eq]
                    · have hp1 : p ≠ pp := fun he => hipp (hppidx i (he ▸ hp))
                      have hp2 : p ≠ node := fun he => (by omega : ¬i = index)
                        (hnodeidx i (he ▸ hp))
                      obtain ⟨nd, hnd2, hnx⟩ := (nextChainOK_iff _ ps).mp hnc0 i p hp
                      refine ⟨nd, by rw [hother p (List.getElem?_mem hp) hp1 hp2, hnd2], ?_⟩
                      rw [hnx, hqs_lt (i + 1) (by omega)]
                  · subst hi
                    rw [hqs_eq] at hp
                    have : p = l.heap.length := by simpa using hp.symm
                    subst this
                    refine ⟨⟨stored, some node, some pp⟩, hq4, ?_⟩
                    show some node = _
                    rw [hqs_gt (i + 1) (by omega), show i + 1 - 1 = i by omega,
                      hnode]
                  · rw [hqs_gt i hi] at hp
                    by_cases hin : i - 1 = index
                    · have : p = node := by
                        rw [hin] at hp
                        rw [hp] at hnode
                        exact Option.some_injective _ hnode
                      subst this
                      refine ⟨{ ndn with previous := some l.heap.length }, hnode4, ?_⟩
                      show ndn.next = _
                      rw [hndnx, hqs_gt (i + 1) (by omega)]
                      congr 1
                      omega
                    · have hp2 : p ≠ node := fun he => hin (hnodeidx (i - 1) (he ▸ hp))
                      have hp1 : p ≠ pp := fun he => (by omega : ¬(i - 1) = index - 1)
                        (hppidx (i - 1) (he ▸ hp))
                      obtain ⟨nd, hnd2, hnx⟩ :=
                        (nextChainOK_iff _ ps).mp hnc0 (i - 1) p hp
                      refine ⟨nd, by rw [hother p (List.getElem?_mem hp) hp1 hp2, hnd2], ?_⟩
                      rw [hnx, hqs_gt (i + 1) (by omega)]
                      congr 1
                      omega
                · rw [prevLinksOK_iff]
                  have hview : ∀ p ∈ ps, p ≠ node →
                      (heapGet h4 p).map (·.previous) = (heapGet h0 p).map (·.previous) := by
                    intro p hp hp2
                    by_cases hp1 : p = pp
                    · subst hp1
                      rw [hpp4, hndpp]
                      rfl
                    · rw [hother p hp hp1 hp2]
                  intro i p hp
                  rcases Nat.lt_trichotomy i index with hi | hi | hi
                  · rw [hqs_lt i hi] at hp
                    have hp2 : p ≠ node := fun he => (by omega : ¬i = index)
                      (hnodeidx i (he ▸ hp))
                    obtain ⟨nd, hnd2, hpv2⟩ := (prevLinksOK_iff _ none ps).mp hpl0 i p hp
                    have hv := hview p (List.getElem?_mem hp) hp2
                    rw [hnd2] at hv
                    match hx : heapGet h4 p with
                    | none => rw [hx] at hv; simp at hv
                    | some nd3 =>
                      rw [hx] at hv
                      simp at hv
                      refine ⟨nd3, rfl, ?_⟩
                      rw [hv, hpv2]
                      cases i with
                      | zero => rfl
                      | succ j =>
                        show ps[j]? =
                          (ps.take index ++ l.heap.length :: ps.drop index)[j]?
                        rw [hqs_lt j (by omega)]
                  · subst hi
                    rw [hqs_eq] at hp
                    have : p = l.heap.length := by simpa using hp.symm
                    subst this
                    refine ⟨⟨stored, some node, some pp⟩, hq4, ?_⟩
                    cases i with
                    | zero => exact absurd rfl hi0
                    | succ j =>
                      show some pp = (ps.take (j + 1) ++ l.heap.length :: ps.drop (j + 1))[j]?
                      rw [hqs_lt j (by omega)]
                      exact hpp.symm
                  · rw [hqs_gt i hi] at hp
                    by_cases hin : i - 1 = index
                    · have : p = node := by
                        rw [hin] at hp
                        rw [hp] at hnode
                        exact Option.some_injective _ hnode
                      subst this
                      refine ⟨{ ndn with previous := some l.heap.length }, hnode4, ?_⟩
                      show some l.heap.length = _
                      cases i with
                      | zero => exfalso; omega
                      | succ j =>
                        show some l.heap.length =
                          (ps.take index ++ l.heap.length :: ps.drop index)[j]?
                        rw [show j = index from by omega, hqs_eq]
                    · have hp2 : p ≠ node := fun he => hin (hnodeidx (i - 1) (he ▸ hp))
                      obtain ⟨nd, hnd2, hpv2⟩ :=
                        (prevLinksOK_iff _ none ps).mp hpl0 (i - 1) p hp
                      have hv := hview p (List.getElem?_mem hp) hp2
                      rw [hnd2] at hv
                      match hx : heapGet h4 p with
                      | none => rw [hx] at hv; simp at hv
                      | some nd3 =>
                        rw [hx] at hv
                        simp at hv
                        refine ⟨nd3, rfl, ?_⟩
                        rw [hv, hpv2]
                        cases i with
                        | zero => exfalso; omega
                        | succ j =>
                          show _ = (ps.take index ++ l.heap.length :: ps.drop index)[j]?
                          cases j with
                          | zero => exfalso; omega
                          | succ k =>
                            show ps[k]? = _
                            rw [hqs_gt (k + 1) (by omega)]
                            simp

/-- `eraseIdx`, element-wise. -/
lemma eraseIdx_getElem? {ps : List Ptr} {k : Nat} (i : Nat) :
    (ps.eraseIdx k)[i]? = if i < k then ps[i]? else ps[i + 1]? :=
  List.getElem?_eraseIdx ps k i

/-- `prevLinksOK`, element-wise, with a rewritable `if`. -/
lemma prevLinksOK_ite {α : Type} (h : List (Option (PNode α))) (pr : Option Ptr)
    (ps : List Ptr) :
    prevLinksOK h pr ps ↔
      ∀ i p, ps[i]? = some p → ∃ nd, heapGet h p = some nd ∧
        nd.previous = if i = 0 then pr else ps[i - 1]? := by
  rw [prevLinksOK_iff]
  constructor <;>
    (intro H i p hp
     obtain ⟨nd, h1, h2⟩ := H i p hp
     refine ⟨nd, h1, ?_⟩
     cases i with
     | zero => simpa using h2
     | succ j => simpa using h2)

set_option maxHeartbeats 1600000 in
/-- `_node_remove` (list.c): removing the node at position `k` of the
chain leaves the chain with that position erased, with front, back and
size adjusted as the four unlink cases do. -/
lemma pnode_remove_chain {α : Type} {l : PList α} {ps : List Ptr} {k : Nat} {node : Ptr}
    (hnd : ps.Nodup) (hsz : l.size = ps.length) (hf : l.front = ps.head?)
    (hb : l.back = ps.getLast?) (hnc : nextChainOK l.heap ps)
    (hpl : prevLinksOK l.heap none ps) (hk : ps[k]? = some node) :
    (_pnode_remove l node).size = ps.length - 1 ∧
    (_pnode_remove l node).front = (ps.eraseIdx k).head? ∧
    (_pnode_remove l node).back = (ps.eraseIdx k).getLast? ∧
    nextChainOK (_pnode_remove l node).heap (ps.eraseIdx k) ∧
    prevLinksOK (_pnode_remove l node).heap none (ps.eraseIdx k) := by
  have hklen : k < ps.length := (List.getElem?_eq_some.mp hk).1
  have hliftN := (nextChainOK_iff l.heap ps).mp hnc
  have hliftP := (prevLinksOK_ite l.heap none ps).mp hpl
  obtain ⟨ndn, hndn, hndnx⟩ := hliftN k node hk
  obtain ⟨ndn2, hndn2, hndn2p⟩ := hliftP k node hk
  have hnd2eq : ndn2 = ndn := by
    rw [hndn] at hndn2
    exact (Option.some_injective _ hndn2).symm
  rw [hnd2eq] at hndn2p
  have hqs : ∀ i, (ps.eraseIdx k)[i]? = if i < k then ps[i]? else ps[i + 1]? :=
    fun i => eraseIdx_getElem? i
  have hqlen : (ps.eraseIdx k).length = ps.length - 1 := by
    rw [List.length_eraseIdx]
    rw [if_pos hklen]
  have hkidx : ∀ i, ps[i]? = some node → i = k := fun i hi =>
    nodup_getElem?_inj hnd hi hk
  by_cases h1 : l.size = 1
  · have hres : _pnode_remove l node =
        { l with
          heap := heapFree l.heap node
          front := none
          back := none
          size := l.size - 1 } := by
      simp only [_pnode_remove]
      rw [if_pos h1]
    rw [hres]
    have hempty : ps.eraseIdx k = [] := by
      rw [← List.length_eq_zero, hqlen]
      omega
    rw [hempty]
    exact ⟨by show l.size - 1 = ps.length - 1; omega, rfl, rfl, trivial, trivial⟩
  · by_cases h2 : l.front = some node
    · -- the node is the front of a chain of length at least two
      have hk0 : k = 0 :=
        (hkidx 0 (by rw [← List.head?_eq_getElem?, ← hf]; exact h2)).symm
      subst hk0
      have hlen2 : 2 ≤ ps.length := by omega
      obtain ⟨f1, hf1⟩ : ∃ f1, ps[1]? = some f1 :=
        ⟨ps[1], List.getElem?_eq_getElem (by omega)⟩
      have hnewf : ((heapGet l.heap node).bind fun nd => nd.next) = some f1 := by
        rw [hndn]
        show ndn.next = some f1
        rw [hndnx]
        exact hf1
      have hres : _pnode_remove l node =
          { l with
            heap := heapFree (setPrev l.heap f1 none) node
            front := some f1
            size := l.size - 1 } := by
        simp only [_pnode_remove]
        rw [if_neg h1, if_pos h2, hnewf]
      rw [hres]
      have hf1ne : f1 ≠ node := by
        intro he
        have := hkidx 1 (he ▸ hf1)
        omega
      obtain ⟨ndf1, hndf1, hndf1x⟩ := hliftN 1 f1 hf1
      have hf1cell : heapGet (heapFree (setPrev l.heap f1 none) node) f1 =
          some { ndf1 with previous := none } := by
        rw [heapGet_heapFree_ne hf1ne, heapGet_setPrev_self _ hndf1]
      have hcell : ∀ p, p ≠ node → p ≠ f1 →
          heapGet (heapFree (setPrev l.heap f1 none) node) p = heapGet l.heap p := by
        intro p hpn hpf
        rw [heapGet_heapFree_ne hpn, heapGet_setPrev_ne _ hpf]
      refine ⟨by show l.size - 1 = ps.length - 1; omega, ?_, ?_, ?_, ?_⟩
      · show some f1 = _
        rw [List.head?_eq_getElem?, hqs 0]
        rw [if_neg (by omega)]
        exact hf1.symm
      · show l.back = _
        rw [hb, List.getLast?_eq_getElem?, List.getLast?_eq_getElem?, hqlen,
          hqs (ps.length - 1 - 1)]
        rw [if_neg (by omega)]
        congr 1
        omega
      · rw [nextChainOK_iff]
        intro i p hp
        rw [hqs i, if_neg (by omega)] at hp
        by_cases hi0 : i = 0
        · subst hi0
          have hpf1 : p = f1 := by
            rw [hf1] at hp
            exact Option.some_injective _ hp.symm
          rw [hpf1]
          refine ⟨{ ndf1 with previous := none }, hf1cell, ?_⟩
          show ndf1.next = _
          rw [hndf1x, hqs 1, if_neg (by omega)]
        · have hpn : p ≠ node := fun he => (by omega : ¬i + 1 = 0) (hkidx (i + 1) (he ▸ hp))
          have hpf : p ≠ f1 := by
            intro he
            have := nodup_getElem?_inj hnd (he ▸ hp) hf1
            omega
          obtain ⟨nd, hnd2, hnx⟩ := hliftN (i + 1) p hp
          refine ⟨nd, by rw [hcell p hpn hpf, hnd2], ?_⟩
          rw [hnx, hqs (i + 1), if_neg (by omega)]
      · rw [prevLinksOK_ite]
        intro i p hp
        rw [hqs i, if_neg (by omega)] at hp
        by_cases hi0 : i = 0
        · subst hi0
          have hpf1 : p = f1 := by
            rw [hf1] at hp
            exact Option.some_injective _ hp.symm
          rw [hpf1]
          refine ⟨{ ndf1 with previous := none }, hf1cell, ?_⟩
          rw [if_pos rfl]
        · have hpn : p ≠ node := fun he => (by omega : ¬i + 1 = 0) (hkidx (i + 1) (he ▸ hp))
          have hpf : p ≠ f1 := by
            intro he
            have := nodup_getElem?_inj hnd (he ▸ hp) hf1
            omega
          obtain ⟨nd, hnd2, hpv⟩ := hliftP (i + 1) p hp
          refine ⟨nd, by rw [hcell p hpn hpf, hnd2], ?_⟩
          rw [hpv, if_neg (by omega), if_neg hi0, hqs (i - 1), if_neg (by omega)]
          congr 1
          omega
    · by_cases h3 : l.back = some node
      · -- the node is the back of a chain of length at least two
        have hkN : k = ps.length - 1 := by
          refine (hkidx (ps.length - 1) ?_).symm
          rw [← List.getLast?_eq_getElem?, ← hb]
          exact h3
        have hk1 : 1 ≤ k := by
          rcases Nat.eq_zero_or_pos k with h00 | h00
          · exfalso
            apply h2
            rw [hf, List.head?_eq_getElem?, ← h00]
            exact hk
          · exact h00
        have hlen2 : 2 ≤ ps.length := by omega
        obtain ⟨b1, hb1⟩ : ∃ b1, ps[k - 1]? = some b1 :=
          ⟨ps[k - 1], List.getElem?_eq_getElem (by omega)⟩
        have hnewb : ((heapGet l.heap node).bind fun nd => nd.previous) = some b1 := by
          rw [hndn]
          show ndn.previous = some b1
          rw [hndn2p, if_neg (by omega)]
          exact hb1
        have hres : _pnode_remove l node =
            { l with
              heap := heapFree (setNext l.heap b1 none) node
              back := some b1
              size := l.size - 1 } := by
          simp only [_pnode_remove]
          rw [if_neg h1, if_neg h2, if_pos h3, hnewb]
        rw [hres]
        have hb1ne : b1 ≠ node := by
          intro he
          have := hkidx (k - 1) (he ▸ hb1)
          omega
        obtain ⟨ndb1, hndb1, hndb1p⟩ := hliftP (k - 1) b1 hb1
        have hb1cell : heapGet (heapFree (setNext l.heap b1 none) node) b1 =
            some { ndb1 with next := none } := by
          rw [heapGet_heapFree_ne hb1ne, heapGet_setNext_self _ hndb1]
        have hcell : ∀ p, p ≠ node → p ≠ b1 →
            heapGet (heapFree (setNext l.heap b1 none) node) p = heapGet l.heap p := by
          intro p hpn hpb
          rw [heapGet_heapFree_ne hpn, heapGet_setNext_ne _ hpb]
        have hb1idx : ∀ i, ps[i]? = some b1 → i = k - 1 := fun i hi =>
          nodup_getElem?_inj hnd hi hb1
        refine ⟨by show l.size - 1 = ps.length - 1; omega, ?_, ?_, ?_, ?_⟩
        · show l.front = _
          rw [hf, List.head?_eq_getElem?, List.head?_eq_getElem?, hqs 0]
          rw [if_pos (by omega)]
        · show some b1 = _
          rw [List.getLast?_eq_getElem?, hqlen, hqs (ps.length - 1 - 1)]
          rw [if_pos (by omega), show ps.length - 1 - 1 = k - 1 by omega]
          exact hb1.symm
        · rw [nextChainOK_iff]
          intro i p hp
          have hilt : i < ps.length - 1 := by
            have := (List.getElem?_eq_some.mp hp).1
            omega
          rw [hqs i, if_pos (by omega)] at hp
          by_cases hib : i = k - 1
          · subst hib
            have hpb : p = b1 := by
              rw [hb1] at hp
              exact Option.some_injective _ hp.symm
            rw [hpb]
            refine ⟨{ ndb1 with next := none }, hb1cell, ?_⟩
            show none = _
            rw [hqs (k - 1 + 1), if_neg (by omega)]
            rw [List.getElem?_eq_none (by omega)]
          · have hpn : p ≠ node := fun he => (by omega : ¬i = k) (hkidx i (he ▸ hp))
            have hpb : p ≠ b1 := fun he => hib (hb1idx i (he ▸ hp))
            obtain ⟨nd, hnd2, hnx⟩ := hliftN i p hp
            refine ⟨nd, by rw [hcell p hpn hpb, hnd2], ?_⟩
            rw [hnx, hqs (i + 1), if_pos (by omega)]
        · rw [prevLinksOK_ite]
          intro i p hp
          have hilt : i < ps.length - 1 := by
            have := (List.getElem?_eq_some.mp hp).1
            omega
          rw [hqs i, if_pos (by omega)] at hp
          by_cases hib : i = k - 1
          · subst hib
            have hpb : p = b1 := by
              rw [hb1] at hp
              exact Option.some_injective _ hp.symm
            rw [hpb]
            refine ⟨{ ndb1 with next := none }, hb1cell, ?_⟩
            show ndb1.previous = _
            rw [hndb1p]
            by_cases hkz : k - 1 = 0
            · rw [if_pos hkz, if_pos hkz]
            · rw [if_neg hkz, if_neg hkz, hqs (k - 1 - 1), if_pos (by omega)]
          · have hpn : p ≠ node := fun he => (by omega : ¬i = k) (hkidx i (he ▸ hp))
            have hpb : p ≠ b1 := fun he => hib (hb1idx i (he ▸ hp))
            obtain ⟨nd, hnd2, hpv⟩ := hliftP i p hp
            refine ⟨nd, by rw [hcell p hpn hpb, hnd2], ?_⟩
            rw [hpv]
            by_cases hi0 : i = 0
            · rw [if_pos hi0, if_pos hi0]
            · rw [if_neg hi0, if_neg hi0, hqs (i - 1), if_pos (by omega)]
      · -- interior node: both neighbours exist
        have hk1 : 1 ≤ k := by
          rcases Nat.eq_zero_or_pos k with h00 | h00
          · exfalso
            apply h2
            rw [hf, List.head?_eq_getElem?, ← h00]
            exact hk
          · exact h00
        have hkN : k < ps.length - 1 := by
          rcases Nat.lt_or_ge k (ps.length - 1) with h00 | h00
          · exact h00
          · exfalso
            apply h3
            rw [hb, List.getLast?_eq_getElem?, show ps.length - 1 = k by omega]
            exact hk
        have hlen3 : 3 ≤ ps.length := by omega
        obtain ⟨pp, hpp⟩ : ∃ pp, ps[k - 1]? = some pp :=
          ⟨ps[k - 1], List.getElem?_eq_getElem (by omega)⟩
        obtain ⟨nn, hnn⟩ : ∃ nn, ps[k + 1]? = some nn :=
          ⟨ps[k + 1], List.getElem?_eq_getElem (by omega)⟩
        have hpn' : ((heapGet l.heap node).bind fun nd => nd.previous) = some pp := by
          rw [hndn]
          show ndn.previous = some pp
          rw [hndn2p, if_neg (by omega)]
          exact hpp
        have hnx' : ((heapGet l.heap node).bind fun nd => nd.next) = some nn := by
          rw [hndn]
          show ndn.next = some nn
          rw [hndnx]
          exact hnn
        have hres : _pnode_remove l node =
            { l with
              heap := heapFree (setPrev (setNext l.heap pp (some nn)) nn (some pp)) node
              size := l.size - 1 } := by
          simp only [_pnode_remove]
          rw [if_neg h1, if_neg h2, if_neg h3, hpn', hnx']
        rw [hres]
        have hppidx : ∀ i, ps[i]? = some pp → i = k - 1 := fun i hi =>
          nodup_getElem?_inj hnd hi hpp
        have hnnidx : ∀ i, ps[i]? = some nn → i = k + 1 := fun i hi =>
          nodup_getElem?_inj hnd hi hnn
        have hppnode : pp ≠ node := fun he => (by omega : ¬k - 1 = k) (hkidx (k - 1) (he ▸ hpp))
        have hnnnode : nn ≠ node := fun he => (by omega : ¬k + 1 = k) (hkidx (k + 1) (he ▸ hnn))
        have hppnn : pp ≠ nn := fun he => (by omega : ¬k - 1 = k + 1) (hnnidx (k - 1) (he ▸ hpp))
        obtain ⟨ndpp, hndpp, hndppx⟩ := hliftN (k - 1) pp hpp
        obtain ⟨ndnn, hndnn, hndnnp⟩ := hliftP (k + 1) nn hnn
        obtain ⟨ndnn2, hndnn2, hndnn2x⟩ := hliftN (k + 1) nn hnn
        have hnn2eq : ndnn2 = ndnn := by
          rw [hndnn] at hndnn2
          exact (Option.some_injective _ hndnn2).symm
        rw [hnn2eq] at hndnn2x
        obtain ⟨ndpp2, hndpp2, hndpp2p⟩ := hliftP (k - 1) pp hpp
        have hpp2eq : ndpp2 = ndpp := by
          rw [hndpp] at hndpp2
          exact (Option.some_injective _ hndpp2).symm
        rw [hpp2eq] at hndpp2p
        have hppcell : heapGet (heapFree (setPrev (setNext l.heap pp (some nn)) nn
            (some pp)) node) pp = some { ndpp with next := some nn } := by
          rw [heapGet_heapFree_ne hppnode, heapGet_setPrev_ne _ hppnn,
            heapGet_setNext_self _ hndpp]
        have hnncell0 : heapGet (setNext l.heap pp (some nn)) nn = some ndnn := by
          rw [heapGet_setNext_ne _ hppnn.symm, hndnn]
        have hnncell : heapGet (heapFree (setPrev (setNext l.heap pp (some nn)) nn
            (some pp)) node) nn = some { ndnn with previous := some pp } := by
          rw [heapGet_heapFree_ne hnnnode, heapGet_setPrev_self _ hnncell0]
        have hcell : ∀ p, p ≠ node → p ≠ pp → p ≠ nn →
            heapGet (heapFree (setPrev (setNext l.heap pp (some nn)) nn (some pp)) node) p =
              heapGet l.heap p := by
          intro p hp1 hp2 hp3
          rw [heapGet_heapFree_ne hp1, heapGet_setPrev_ne _ hp3, heapGet_setNext_ne _ hp2]
        refine ⟨by show l.size - 1 = ps.length - 1; omega, ?_, ?_, ?_, ?_⟩
        · show l.front = _
          rw [hf, List.head?_eq_getElem?, List.head?_eq_getElem?, hqs 0]
          rw [if_pos (by omega)]
        · show l.back = _
          rw [hb, List.getLast?_eq_getElem?, List.getLast?_eq_getElem?, hqlen,
            hqs (ps.length - 1 - 1)]
          rw [if_neg (by omega)]
          congr 1
          omega
        · rw [nextChainOK_iff]
          intro i p hp
          rw [hqs i] at hp
          by_cases hik : i < k
          · rw [if_pos hik] at hp
            by_cases hib : i = k - 1
            · subst hib
              have hpb : p = pp := by
                rw [hpp] at hp
                exact Option.some_injective _ hp.symm
              rw [hpb]
              refine ⟨{ ndpp with next := some nn }, hppcell, ?_⟩
              show some nn = _
              rw [hqs (k - 1 + 1), if_neg (by omega), show k - 1 + 1 + 1 = k + 1 by omega]
              exact hnn.symm
            · have hp1 : p ≠ node := fun he => (by omega : ¬i = k) (hkidx i (he ▸ hp))
              have hp2 : p ≠ pp := fun he => hib (hppidx i (he ▸ hp))
              have hp3 : p ≠ nn := fun he => (by omega : ¬i = k + 1) (hnnidx i (he ▸ hp))
              obtain ⟨nd, hnd2, hnx⟩ := hliftN i p hp
              refine ⟨nd, by rw [hcell p hp1 hp2 hp3, hnd2], ?_⟩
              rw [hnx, hqs (i + 1), if_pos (by omega)]
          · rw [if_neg hik] at hp
            by_cases hib : i = k
            · rw [hib] at hp
              have hpb : p = nn := by
                rw [hnn] at hp
                exact Option.some_injective _ hp.symm
              rw [hpb, hib]
              refine ⟨{ ndnn with previous := some pp }, hnncell, ?_⟩
              show ndnn.next = _
              rw [hndnn2x, hqs (k + 1), if_neg (by omega)]
            · have hp1 : p ≠ node := fun he => (by omega : ¬i + 1 = k) (hkidx (i + 1) (he ▸ hp))
              have hp2 : p ≠ pp := fun he => (by omega : ¬i + 1 = k - 1)
                (hppidx (i + 1) (he ▸ hp))
              have hp3 : p ≠ nn := fun he => (by omega : ¬i + 1 = k + 1)
                (hnnidx (i + 1) (he ▸ hp))
              obtain ⟨nd, hnd2, hnx⟩ := hliftN (i + 1) p hp
              refine ⟨nd, by rw [hcell p hp1 hp2 hp3, hnd2], ?_⟩
              rw [hnx, hqs (i + 1), if_neg (by omega)]
        · rw [prevLinksOK_ite]
          intro i p hp
          rw [hqs i] at hp
          by_cases hik : i < k
          · rw [if_pos hik] at hp
            by_cases hib : i = k - 1
            · subst hib
              have hpb : p = pp := by
                rw [hpp] at hp
                exact Option.some_injective _ hp.symm
              rw [hpb]
              refine ⟨{ ndpp with next := some nn }, hppcell, ?_⟩
              show ndpp.previous = _
              rw [hndpp2p]
              by_cases hkz : k - 1 = 0
              · rw [if_pos hkz, if_pos hkz]
              · rw [if_neg hkz, if_neg hkz, hqs (k - 1 - 1), if_pos (by omega)]
            · have hp1 : p ≠ node := fun he => (by omega : ¬i = k) (hkidx i (he ▸ hp))
              have hp2 : p ≠ pp := fun he => hib (hppidx i (he ▸ hp))
              have hp3 : p ≠ nn := fun he => (by omega : ¬i = k + 1) (hnnidx i (he ▸ hp))
              obtain ⟨nd, hnd2, hpv⟩ := hliftP i p hp
              refine ⟨nd, by rw [hcell p hp1 hp2 hp3, hnd2], ?_⟩
              rw [hpv]
              by_cases hi0 : i = 0
              · rw [if_pos hi0, if_pos hi0]
              · rw [if_neg hi0, if_neg hi0, hqs (i - 1), if_pos (by omega)]
          · rw [if_neg hik] at hp
            by_cases hib : i = k
            · rw [hib] at hp
              have hpb : p = nn := by
                rw [hnn] at hp
                exact Option.some_injective _ hp.symm
              rw [hpb, hib]
              refine ⟨{ ndnn with previous := some pp }, hnncell, ?_⟩
              show some pp = _
              rw [if_neg (by omega), hqs (k - 1), if_pos (by omega)]
              exact hpp.symm
            · have hp1 : p ≠ node := fun he => (by omega : ¬i + 1 = k) (hkidx (i + 1) (he ▸ hp))
              have hp2 : p ≠ pp := fun he => (by omega : ¬i + 1 = k - 1)
                (hppidx (i + 1) (he ▸ hp))
              have hp3 : p ≠ nn := fun he => (by omega : ¬i + 1 = k + 1)
                (hnnidx (i + 1) (he ▸ hp))
              obtain ⟨nd, hnd2, hpv⟩ := hliftP (i + 1) p hp
              refine ⟨nd, by rw [hcell p hp1 hp2 hp3, hnd2], ?_⟩
              rw [hpv, if_neg (by omega), if_neg (by omega)]
              rw [show i + 1 - 1 = i from rfl, hqs (i - 1), if_neg (by omega)]
              congr 1
              omega

/-- `list_remove` at pointer level: a failing call leaves the list
untouched; a successful call preserves the structural invariant. -/
lemma plist_remove_wf {α : Type} (l : PList α) (index : Nat) (wd : Bool) (hw : l.WF) :
    ((plist_remove l index wd).2 ≠ none → (plist_remove l index wd).1 = l) ∧
    ((plist_remove l index wd).2 = none → (plist_remove l index wd).1.WF) := by
  obtain ⟨ps, hnd, hsz, hf, hb, hnc, hpl⟩ := hw
  unfold plist_remove
  by_cases hidx : index ≥ l.size
  · rw [if_pos hidx]
    exact ⟨fun _ => rfl, fun hc => Option.noConfusion hc⟩
  · rw [if_neg hidx]
    have hsrch : pnode_search l index = ps[index]? :=
      pnode_search_spec hsz hf hb hnc hpl (by omega)
    obtain ⟨node, hnode⟩ : ∃ node, ps[index]? = some node :=
      ⟨ps[index], List.getElem?_eq_getElem (by omega)⟩
    rw [hsrch, hnode]
    dsimp only
    have hrem : (_pnode_remove l node).WF := by
      obtain ⟨hs, hfr, hbk, hnc2, hpl2⟩ := pnode_remove_chain hnd hsz hf hb hnc hpl hnode
      exact ⟨ps.eraseIdx index, List.Nodup.eraseIdx index hnd,
        hs.trans (by rw [List.length_eraseIdx]; rw [if_pos (by omega)]),
        hfr, hbk, hnc2, hpl2⟩
    cases wd with
    | false => exact ⟨fun hc => absurd rfl hc, fun _ => hrem⟩
    | true =>
      match hcopy : (heapGet l.heap node).bind fun nd => _pvalue_copy l nd.value with
      | none => exact ⟨fun _ => rfl, fun hc => Option.noConfusion hc⟩
      | some x => exact ⟨fun hc => absurd rfl hc, fun _ => hrem⟩

/-- The `list_removeall` traversal preserves the structural invariant:
the walked pointer is always some chain position of the current list,
and unlinking keeps the remainder a proper chain. -/
lemma premoveall_loop_wf {α : Type} (cmp : α → α → Int) (key : α) :
    ∀ (fuel : Nat) (l : PList α) (ps : List Ptr) (k : Nat),
      ps.Nodup → l.size = ps.length → l.front = ps.head? → l.back = ps.getLast? →
      nextChainOK l.heap ps → prevLinksOK l.heap none ps →
      (_premoveall_loop cmp key fuel l ps[k]?).WF := by
  intro fuel
  induction fuel with
  | zero =>
    intro l ps k hnd hsz hf hb hnc hpl
    exact ⟨ps, hnd, hsz, hf, hb, hnc, hpl⟩
  | succ fuel ih =>
    intro l ps k hnd hsz hf hb hnc hpl
    match hpo : ps[k]? with
    | none => exact ⟨ps, hnd, hsz, hf, hb, hnc, hpl⟩
    | some p =>
      have hklen : k < ps.length := (List.getElem?_eq_some.mp hpo).1
      obtain ⟨nd, hcell, hnx⟩ := (nextChainOK_iff l.heap ps).mp hnc k p hpo
      show (_premoveall_loop cmp key (fuel + 1) l (some p)).WF
      rw [_premoveall_loop, hcell]
      dsimp only
      by_cases hcmp : cmp nd.value key = 0
      · rw [if_pos hcmp]
        obtain ⟨hs, hfr, hbk, hnc2, hpl2⟩ := pnode_remove_chain hnd hsz hf hb hnc hpl hpo
        have hqlen : (ps.eraseIdx k).length = ps.length - 1 := by
          rw [List.length_eraseIdx]
          rw [if_pos hklen]
        have hnext : nd.next = (ps.eraseIdx k)[k]? := by
          rw [hnx, eraseIdx_getElem? k, if_neg (lt_irrefl k)]
        rw [hnext]
        exact ih (_pnode_remove l p) (ps.eraseIdx k) k (List.Nodup.eraseIdx k hnd)
          (hs.trans hqlen.symm) hfr hbk hnc2 hpl2
      · rw [if_neg hcmp, hnx]
        exact ih l ps (k + 1) hnd hsz hf hb hnc hpl

/-- `list_removeall` at pointer level: a failing call leaves the list
untouched; a successful call preserves the structural invariant. -/
lemma plist_removeall_wf {α : Type} (l : PList α) (key : Option α)
    (compare : Option (α → α → Int)) (hw : l.WF) :
    ((plist_removeall l key compare).2 ≠ none → (plist_removeall l key compare).1 = l) ∧
    ((plist_removeall l key compare).2 = none → (plist_removeall l key compare).1.WF) := by
  obtain ⟨ps, hnd, hsz, hf, hb, hnc, hpl⟩ := hw
  match key, compare with
  | none, none => exact ⟨fun _ => rfl, fun hc => Option.noConfusion hc⟩
  | none, some cmp => exact ⟨fun _ => rfl, fun hc => Option.noConfusion hc⟩
  | some k, none => exact ⟨fun _ => rfl, fun hc => Option.noConfusion hc⟩
  | some k, some cmp =>
    refine ⟨fun hc => absurd rfl hc, fun _ => ?_⟩
    show (_premoveall_loop cmp k l.size l l.front).WF
    have hfront : l.front = ps[0]? := by
      rw [hf, List.head?_eq_getElem?]
    rw [hfront]
    exact premoveall_loop_wf cmp k l.size l ps 0 hnd hsz hf hb hnc hpl

/-- `list_set` at pointer level: a failing call leaves the list
untouched; a successful call preserves the structural invariant (only a
value slot changes, never a link). -/
lemma plist_set_wf {α : Type} (l : PList α) (index : Nat) (value : Option α)
    (va : Bool) (hw : l.WF) :
    ((plist_set l index value va).2 ≠ none → (plist_set l index value va).1 = l) ∧
    ((plist_set l index value va).2 = none → (plist_set l index value va).1.WF) := by
  obtain ⟨ps, hnd, hsz, hf, hb, hnc, hpl⟩ := hw
  unfold plist_set
  match value with
  | none => exact ⟨fun _ => rfl, fun hc => Option.noConfusion hc⟩
  | some val =>
    dsimp only
    by_cases hidx : index ≥ l.size
    · rw [if_pos hidx]
      exact ⟨fun _ => rfl, fun hc => Option.noConfusion hc⟩
    · rw [if_neg hidx]
      match (if va then _pvalue_copy l val else none) with
      | none => exact ⟨fun _ => rfl, fun hc => Option.noConfusion hc⟩
      | some new =>
        have hsrch : pnode_search l index = ps[index]? :=
          pnode_search_spec hsz hf hb hnc hpl (by omega)
        obtain ⟨node, hnode⟩ : ∃ node, ps[index]? = some node :=
          ⟨ps[index], List.getElem?_eq_getElem (by omega)⟩
        rw [hsrch, hnode]
        dsimp only
        refine ⟨fun hc => absurd rfl hc, fun _ => ?_⟩
        refine ⟨ps, hnd, hsz, hf, hb, ?_, ?_⟩
        · exact nextChainOK_congr
            (fun p _ => (linkViews_setValue l.heap node p new).1) hnc
        · exact prevLinksOK_congr
            (fun p _ => (linkViews_setValue l.heap node p new).2) hpl

/-- `list_clear` at pointer level: it always succeeds and the cleared
list trivially satisfies the structural invariant (empty chain). -/
lemma plist_clear_wf {α : Type} (l : PList α) :
    (plist_clear l).2 = none ∧ (plist_clear l).1.WF :=
  ⟨rfl, ⟨[], List.nodup_nil, rfl, rfl, rfl, trivial, trivial⟩⟩

/-- Any backward-link run gives the head-relative shape `_list_merge`
preserves. -/
lemma innerPrevOK_of_prevLinksOK {α : Type} {h : List (Option (PNode α))}
    {pr : Option Ptr} {ps : List Ptr} (hp : prevLinksOK h pr ps) : innerPrevOK h ps := by
  cases ps with
  | nil => trivial
  | cons w ws => exact hp.2

/-- `innerPrevOK`, element-wise. -/
lemma innerPrevOK_iff {α : Type} (h : List (Option (PNode α))) (ps : List Ptr) :
    innerPrevOK h ps ↔ ∀ i p, ps[i]? = some p → 1 ≤ i →
      ∃ nd, heapGet h p = some nd ∧ nd.previous = ps[i - 1]? := by
  cases ps with
  | nil => simp [innerPrevOK]
  | cons w ws =>
    show prevLinksOK h (some w) ws ↔ _
    rw [prevLinksOK_ite]
    constructor
    · intro H i p hp h1
      match i, h1 with
      | j + 1, _ =>
        rw [List.getElem?_cons_succ] at hp
        obtain ⟨nd, h2, h3⟩ := H j p hp
        refine ⟨nd, h2, ?_⟩
        rw [h3]
        cases j with
        | zero => simp
        | succ m => simp
    · intro H j p hp
      obtain ⟨nd, h2, h3⟩ := H (j + 1) p (by simpa using hp) (by omega)
      refine ⟨nd, h2, ?_⟩
      rw [h3]
      cases j with
      | zero => simp
      | succ m => simp

/-- `innerPrevOK` only depends on the `previous` views of the chain's
cells. -/
lemma innerPrevOK_congr {α : Type} {h1 h2 : List (Option (PNode α))} {ps : List Ptr}
    (hv : ∀ p ∈ ps, (heapGet h2 p).map (·.previous) = (heapGet h1 p).map (·.previous))
    (hc : innerPrevOK h1 ps) : innerPrevOK h2 ps := by
  cases ps with
  | nil => trivial
  | cons w ws =>
    exact prevLinksOK_congr (fun p hp => hv p (List.mem_cons_of_mem _ hp)) hc

/-- A prefix of a backward-consistent chain stays backward-consistent. -/
lemma innerPrevOK_take {α : Type} {h : List (Option (PNode α))} {ps : List Ptr}
    (k : Nat) (hc : innerPrevOK h ps) : innerPrevOK h (ps.take k) := by
  rw [innerPrevOK_iff] at hc ⊢
  intro i p hp h1
  rw [List.getElem?_take] at hp
  by_cases hik : i < k
  · rw [if_pos hik] at hp
    obtain ⟨nd, h2, h3⟩ := hc i p hp h1
    refine ⟨nd, h2, ?_⟩
    rw [h3, List.getElem?_take, if_pos (by omega)]
  · rw [if_neg hik] at hp
    exact Option.noConfusion hp

/-- A suffix of a backward-consistent chain stays backward-consistent. -/
lemma innerPrevOK_drop {α : Type} {h : List (Option (PNode α))} {ps : List Ptr}
    (k : Nat) (hc : innerPrevOK h ps) : innerPrevOK h (ps.drop k) := by
  rw [innerPrevOK_iff] at hc ⊢
  intro i p hp h1
  rw [List.getElem?_drop] at hp
  obtain ⟨nd, h2, h3⟩ := hc (k + i) p hp (by omega)
  refine ⟨nd, h2, ?_⟩
  rw [h3, List.getElem?_drop, show k + (i - 1) = k + i - 1 by omega]

/-- The fast/slow loop of `_list_split`: started on a chain with enough
fuel it stops on the node just before the cut position
`(length + 1) / 2`. -/
lemma _psplit_loop_spec {α : Type} {h : List (Option (PNode α))} {ps : List Ptr}
    (hnc : nextChainOK h ps) :
    ∀ (fuel i : Nat) (slow fast : Ptr), ps[i]? = some slow → ps[2 * i]? = some fast →
      2 * i < ps.length → ps.length ≤ 2 * i + 2 * fuel + 2 →
      ps[(ps.length + 1) / 2 - 1]? = some (_psplit_loop h fuel slow fast) := by
  have hlift := (nextChainOK_iff h ps).mp hnc
  intro fuel
  induction fuel with
  | zero =>
    intro i slow fast hslow hfast h2i hfuel
    rw [show (ps.length + 1) / 2 - 1 = i by omega]
    exact hslow
  | succ fu ih =>
    intro i slow fast hslow hfast h2i hfuel
    obtain ⟨ndf, hndf, hndfx⟩ := hlift (2 * i) fast hfast
    rw [_psplit_loop]
    have hn1 : ((heapGet h fast).bind fun nd => nd.next) = ps[2 * i + 1]? := by
      rw [hndf]
      exact hndfx
    rw [hn1]
    match hp1 : ps[2 * i + 1]? with
    | none =>
      have : ps.length ≤ 2 * i + 1 := by
        by_contra hc
        rw [List.getElem?_eq_getElem (by omega)] at hp1
        exact Option.noConfusion hp1
      rw [show (ps.length + 1) / 2 - 1 = i by omega]
      exact hslow
    | some f2 =>
      dsimp only
      obtain ⟨ndf2, hndf2, hndf2x⟩ := hlift (2 * i + 1) f2 hp1
      have hn2 : ((heapGet h f2).bind fun nd => nd.next) = ps[2 * i + 2]? := by
        rw [hndf2]
        exact hndf2x
      rw [hn2]
      match hp2 : ps[2 * i + 2]? with
      | none =>
        have : ps.length ≤ 2 * i + 2 := by
          by_contra hc
          rw [List.getElem?_eq_getElem (by omega)] at hp2
          exact Option.noConfusion hp2
        have h21 : 2 * i + 1 < ps.length := (List.getElem?_eq_some.mp hp1).1
        rw [show (ps.length + 1) / 2 - 1 = i by omega]
        exact hslow
      | some f3 =>
        dsimp only
        obtain ⟨nds, hnds, hndsx⟩ := hlift i slow hslow
        have h22 : 2 * i + 2 < ps.length := (List.getElem?_eq_some.mp hp2).1
        have hn3 : ((heapGet h slow).bind fun nd => nd.next) = ps[i + 1]? := by
          rw [hnds]
          exact hndsx
        rw [hn3]
        obtain ⟨s2, hs2⟩ : ∃ s2, ps[i + 1]? = some s2 :=
          ⟨ps[i + 1], List.getElem?_eq_getElem (by omega)⟩
        rw [hs2]
        exact ih (i + 1) s2 f3 hs2 (by rw [show 2 * (i + 1) = 2 * i + 2 by omega]; exact hp2)
          (by omega) (by omega)

/-- `_list_split` at pointer level: the chain is cut after position
`(length + 1) / 2 - 1`; the two halves are proper chains, backward
consistency away from the heads survives, and no cell outside the chain
changes. -/
lemma psplit_spec {α : Type} {h : List (Option (PNode α))} {ps : List Ptr} {f : Ptr}
    (hnd : ps.Nodup) (hnc : nextChainOK h ps) (hipv : innerPrevOK h ps)
    (hlen : 2 ≤ ps.length) (hf : ps[0]? = some f) :
    (psplit h f h.length).2 = (ps.drop ((ps.length + 1) / 2)).head? ∧
    nextChainOK (psplit h f h.length).1 (ps.take ((ps.length + 1) / 2)) ∧
    nextChainOK (psplit h f h.length).1 (ps.drop ((ps.length + 1) / 2)) ∧
    innerPrevOK (psplit h f h.length).1 (ps.take ((ps.length + 1) / 2)) ∧
    innerPrevOK (psplit h f h.length).1 (ps.drop ((ps.length + 1) / 2)) ∧
    (∀ p, p ∉ ps → heapGet (psplit h f h.length).1 p = heapGet h p) ∧
    (psplit h f h.length).1.length = h.length := by
  have hlift := (nextChainOK_iff h ps).mp hnc
  have hk1 : 1 ≤ (ps.length + 1) / 2 := by omega
  have hkN : (ps.length + 1) / 2 < ps.length := by omega
  have hslow : ps[(ps.length + 1) / 2 - 1]? = some (_psplit_loop h h.length f f) :=
    _psplit_loop_spec hnc h.length 0 f f hf (by simpa using hf) (by omega)
      (by have := nextChainOK_length_le hnc hnd; omega)
  have hu : psplit h f h.length =
      (setNext h (_psplit_loop h h.length f f) none,
        (heapGet h (_psplit_loop h h.length f f)).bind fun nd => nd.next) := rfl
  rw [hu]
  obtain ⟨nds, hnds, hndsx⟩ := hlift ((ps.length + 1) / 2 - 1) _ hslow
  have hslowidx : ∀ i, ps[i]? = some (_psplit_loop h h.length f f) →
      i = (ps.length + 1) / 2 - 1 := fun i hi => nodup_getElem?_inj hnd hi hslow
  have hslowcell : heapGet (setNext h (_psplit_loop h h.length f f) none)
      (_psplit_loop h h.length f f) = some { nds with next := none } :=
    heapGet_setNext_self _ hnds
  have hother : ∀ p, p ≠ _psplit_loop h h.length f f →
      heapGet (setNext h (_psplit_loop h h.length f f) none) p = heapGet h p :=
    fun p hp => heapGet_setNext_ne _ hp
  refine ⟨?_, ?_, ?_, ?_, ?_, ?_, ?_⟩
  · show ((heapGet h (_psplit_loop h h.length f f)).bind fun nd => nd.next) = _
    rw [hnds]
    show nds.next = _
    rw [hndsx, List.head?_eq_getElem?, List.getElem?_drop,
      show (ps.length + 1) / 2 - 1 + 1 = (ps.length + 1) / 2 + 0 by omega]
  · rw [nextChainOK_iff]
    intro i p hp
    rw [List.getElem?_take] at hp
    by_cases hik : i < (ps.length + 1) / 2
    · rw [if_pos hik] at hp
      by_cases his : i = (ps.length + 1) / 2 - 1
      · subst his
        have hps : p = _psplit_loop h h.length f f := by
          rw [hslow] at hp
          exact Option.some_injective _ hp.symm
        rw [hps]
        refine ⟨{ nds with next := none }, hslowcell, ?_⟩
        show none = _
        rw [List.getElem?_take, if_neg (by omega)]
      · have hpne : p ≠ _psplit_loop h h.length f f := fun he => his (hslowidx i (he ▸ hp))
        obtain ⟨nd, h2, h3⟩ := hlift i p hp
        refine ⟨nd, by rw [hother p hpne, h2], ?_⟩
        rw [h3, List.getElem?_take, if_pos (by omega)]
    · rw [if_neg hik] at hp
      exact Option.noConfusion hp
  · rw [nextChainOK_iff]
    intro i p hp
    rw [List.getElem?_drop] at hp
    have hpne : p ≠ _psplit_loop h h.length f f := fun he =>
      (by omega : ¬(ps.length + 1) / 2 + i = (ps.length + 1) / 2 - 1)
        (hslowidx _ (he ▸ hp))
    obtain ⟨nd, h2, h3⟩ := hlift ((ps.length + 1) / 2 + i) p hp
    refine ⟨nd, by rw [hother p hpne, h2], ?_⟩
    rw [h3, List.getElem?_drop, show (ps.length + 1) / 2 + (i + 1) =
      (ps.length + 1) / 2 + i + 1 by omega]
  · refine innerPrevOK_congr (fun p _ => ?_) (innerPrevOK_take _ hipv)
    exact prevView_setNext h _ p none
  · refine innerPrevOK_congr (fun p _ => ?_) (innerPrevOK_drop _ hipv)
    exact prevView_setNext h _ p none
  · intro p hp
    exact hother p (fun he => hp (he ▸ List.getElem?_mem hslow))
  · exact length_setNext h _ none

/-- The relink step of `_list_merge`: the chosen head `f` is wired in
front of the recursively merged chain `rp :: qs` — `f.next = rp`,
`rp.previous = f`, `f.previous = NULL`. -/
lemma pmerge_attach {α : Type} {h : List (Option (PNode α))} {f rp : Ptr}
    {qs' : List Ptr} {nf : PNode α}
    (hf : heapGet h f = some nf) (hfm : f ∉ rp :: qs')
    (hnc : nextChainOK h (rp :: qs')) (hipv : innerPrevOK h (rp :: qs'))
    (hnd : (rp :: qs').Nodup) :
    nextChainOK (setPrev (setPrev (setNext h f (some rp)) rp (some f)) f none)
      (f :: rp :: qs') ∧
    innerPrevOK (setPrev (setPrev (setNext h f (some rp)) rp (some f)) f none)
      (f :: rp :: qs') ∧
    (∃ nd, heapGet (setPrev (setPrev (setNext h f (some rp)) rp (some f)) f none) f =
      some nd ∧ nd.previous = none) ∧
    (∀ p, p ≠ f → p ≠ rp →
      heapGet (setPrev (setPrev (setNext h f (some rp)) rp (some f)) f none) p =
        heapGet h p) ∧
    (setPrev (setPrev (setNext h f (some rp)) rp (some f)) f none).length = h.length := by
  have hfrp : f ≠ rp := fun he => hfm (he ▸ List.mem_cons_self _ _)
  have hfqs : f ∉ qs' := fun hm => hfm (List.mem_cons_of_mem _ hm)
  have hrpqs : rp ∉ qs' := (List.nodup_cons.mp hnd).1
  obtain ⟨ndrp, hrp, hrpx⟩ := hnc.1
  have h2f : heapGet (setNext h f (some rp)) f = some { nf with next := some rp } :=
    heapGet_setNext_self _ hf
  have h2rp : heapGet (setNext h f (some rp)) rp = some ndrp := by
    rw [heapGet_setNext_ne _ hfrp.symm, hrp]
  have h3rp : heapGet (setPrev (setNext h f (some rp)) rp (some f)) rp =
      some { ndrp with previous := some f } := heapGet_setPrev_self _ h2rp
  have h3f : heapGet (setPrev (setNext h f (some rp)) rp (some f)) f =
      some { nf with next := some rp } := by
    rw [heapGet_setPrev_ne _ hfrp, h2f]
  have h4f := heapGet_setPrev_self none h3f
  have h4rp : heapGet (setPrev (setPrev (setNext h f (some rp)) rp (some f)) f none) rp =
      some { ndrp with previous := some f } := by
    rw [heapGet_setPrev_ne _ hfrp.symm]
    exact h3rp
  have hother : ∀ p, p ≠ f → p ≠ rp →
      heapGet (setPrev (setPrev (setNext h f (some rp)) rp (some f)) f none) p =
        heapGet h p := by
    intro p h1 h2
    rw [heapGet_setPrev_ne _ h1, heapGet_setPrev_ne _ h2, heapGet_setNext_ne _ h1]
  refine ⟨⟨⟨_, h4f, rfl⟩, ?_⟩, ⟨⟨_, h4rp, rfl⟩, ?_⟩, ⟨_, h4f, rfl⟩, hother, ?_⟩
  · refine nextChainOK_congr (fun p hp => ?_) hnc
    rw [nextView_setPrev, nextView_setPrev]
    have hpf : p ≠ f := fun he => hfm (he ▸ hp)
    rw [heapGet_setNext_ne _ hpf]
  · refine prevLinksOK_congr (fun p hp => ?_) hipv
    have hpf : p ≠ f := fun he => hfqs (he ▸ hp)
    have hprp : p ≠ rp := fun he => hrpqs (he ▸ hp)
    rw [hother p hpf hprp]
  · rw [length_setPrev, length_setPrev, length_setNext]

set_option maxHeartbeats 3200000 in
/-- `_list_merge` at pointer level: merging two disjoint chains with
enough fuel yields a chain over the union of their nodes whose forward
and inner backward links are consistent, whose head `previous` is NULL
when both inputs were nonempty, and which touches no cell outside the
two chains. -/
lemma pmerge_spec {α : Type} (r : Bool) (cmp : α → α → Int) :
    ∀ (fuel : Nat) (h : List (Option (PNode α))) (ps1 ps2 : List Ptr),
      (ps1 ++ ps2).Nodup →
      nextChainOK h ps1 → nextChainOK h ps2 →
      innerPrevOK h ps1 → innerPrevOK h ps2 →
      ps1.length + ps2.length ≤ fuel →
      ∃ h2 qs, pmerge r cmp fuel h ps1.head? ps2.head? = (h2, qs.head?) ∧
        qs.Perm (ps1 ++ ps2) ∧
        nextChainOK h2 qs ∧ innerPrevOK h2 qs ∧
        (ps1 ≠ [] → ps2 ≠ [] →
          ∃ w ws nd, qs = w :: ws ∧ heapGet h2 w = some nd ∧ nd.previous = none) ∧
        (∀ p, p ∉ ps1 → p ∉ ps2 → heapGet h2 p = heapGet h p) ∧
        h2.length = h.length := by
  intro fuel
  induction fuel with
  | zero =>
    intro h ps1 ps2 hnd hnc1 hnc2 hip1 hip2 hfuel
    have h1 : ps1 = [] := List.length_eq_zero.mp (by omega)
    have h2 : ps2 = [] := List.length_eq_zero.mp (by omega)
    subst h1
    subst h2
    exact ⟨h, [], rfl, List.Perm.refl _, trivial, trivial,
      fun hc _ => absurd rfl hc, fun _ _ _ => rfl, rfl⟩
  | succ fu ih =>
    intro h ps1 ps2 hnd hnc1 hnc2 hip1 hip2 hfuel
    cases ps1 with
    | nil =>
      exact ⟨h, ps2, rfl, by simpa using List.Perm.refl ps2, hnc2, hip2,
        fun hc _ => absurd rfl hc, fun _ _ _ => rfl, rfl⟩
    | cons f t1 =>
      cases ps2 with
      | nil =>
        exact ⟨h, f :: t1, rfl, by simpa using List.Perm.refl (f :: t1), hnc1, hip1,
          fun _ hc => absurd rfl hc, fun _ _ _ => rfl, rfl⟩
      | cons s t2 =>
        obtain ⟨nf, hnf, hnfx⟩ := hnc1.1
        have hnct1 := hnc1.2
        obtain ⟨ns, hns, hnsx⟩ := hnc2.1
        have hnct2 := hnc2.2
        have hndflat : (f :: (t1 ++ s :: t2)).Nodup := by
          rw [← List.cons_append]
          exact hnd
        have hfnotin : f ∉ t1 ++ s :: t2 := (List.nodup_cons.mp hndflat).1
        have hfnt1 : f ∉ t1 := fun hm => hfnotin (List.mem_append_left _ hm)
        have hfns2 : f ∉ s :: t2 := fun hm => hfnotin (List.mem_append_right _ hm)
        have hsns : s ∉ t2 := by
          have : (s :: t2).Nodup := List.Nodup.of_append_right hnd
          exact (List.nodup_cons.mp this).1
        have hsnot1 : s ∉ f :: t1 := by
          intro hm
          have := List.disjoint_of_nodup_append hnd
          exact this hm (List.mem_cons_self _ _)
        show ∃ (h2 : List (Option (PNode α))) (qs : List Ptr),
          pmerge r cmp (fu + 1) h (some f) (some s) = (h2, qs.head?) ∧ _
        rw [pmerge, hnf, hns]
        dsimp only
        by_cases hc : ((if r then -1 else 1 : Int) * cmp nf.value ns.value < 0)
        · rw [if_pos hc]
          obtain ⟨h2, qs, hres, hperm, hncq, hipq, hhead, hframe, hlen⟩ :=
            ih h t1 (s :: t2) (List.Nodup.of_cons hndflat) hnct1 hnc2
              (innerPrevOK_of_prevLinksOK hip1) hip2 (by simp at hfuel ⊢; omega)
          simp only [List.head?_cons] at hres
          rw [← hnfx] at hres
          obtain ⟨rp, qs', hqs⟩ : ∃ rp qs', qs = rp :: qs' := by
            cases qs with
            | nil =>
              have := hperm.length_eq
              simp at this
              omega
            | cons a b => exact ⟨a, b, rfl⟩
          subst hqs
          rw [hres]
          simp only [List.head?_cons]
          have hfq : f ∉ rp :: qs' := fun hm => hfnotin (hperm.mem_iff.mp hm)
          have hfh2 : heapGet h2 f = some nf := by
            rw [hframe f hfnt1 hfns2, hnf]
          obtain ⟨hA1, hA2, hA3, hA4, hA5⟩ :=
            pmerge_attach hfh2 hfq hncq hipq (hperm.nodup_iff.mpr
              (List.Nodup.of_cons hndflat))
          refine ⟨_, f :: rp :: qs', rfl, ?_, hA1, hA2, ?_, ?_, ?_⟩
          · rw [List.cons_append]
            exact hperm.cons f
          · exact fun _ _ => ⟨f, rp :: qs', hA3.choose, rfl, hA3.choose_spec⟩
          · intro p hp1 hp2
            have hpf : p ≠ f := fun he => hp1 (he ▸ List.mem_cons_self _ _)
            have hprp : p ≠ rp := by
              intro he
              have hrpm : rp ∈ t1 ++ s :: t2 := hperm.mem_iff.mp (List.mem_cons_self _ _)
              rcases List.mem_append.mp hrpm with hm | hm
              · exact hp1 (he ▸ List.mem_cons_of_mem _ hm)
              · exact hp2 (he ▸ hm)
            rw [hA4 p hpf hprp]
            exact hframe p (fun hm => hp1 (List.mem_cons_of_mem _ hm)) hp2
          · rw [hA5, hlen]
        · rw [if_neg hc]
          obtain ⟨h2, qs, hres, hperm, hncq, hipq, hhead, hframe, hlen⟩ :=
            ih h (f :: t1) t2 (by
              refine List.Sublist.nodup ?_ hnd
              exact (List.sublist_cons_self s t2).append_left (f :: t1))
              hnc1 hnct2 hip1 (innerPrevOK_of_prevLinksOK hip2)
              (by simp at hfuel ⊢; omega)
          simp only [List.head?_cons] at hres
          rw [← hnsx] at hres
          obtain ⟨rp, qs', hqs⟩ : ∃ rp qs', qs = rp :: qs' := by
            cases qs with
            | nil =>
              have := hperm.length_eq
              simp at this
            | cons a b => exact ⟨a, b, rfl⟩
          subst hqs
          rw [hres]
          simp only [List.head?_cons]
          have hsq : s ∉ rp :: qs' := by
            intro hm
            have := hperm.mem_iff.mp hm
            rcases List.mem_append.mp this with hm2 | hm2
            · exact hsnot1 hm2
            · exact hsns hm2
          have hsh2 : heapGet h2 s = some ns := by
            rw [hframe s hsnot1 hsns, hns]
          obtain ⟨hA1, hA2, hA3, hA4, hA5⟩ :=
            pmerge_attach hsh2 hsq hncq hipq (hperm.nodup_iff.mpr
              (List.Sublist.nodup ((List.sublist_cons_self s t2).append_left (f :: t1)) hnd))
          refine ⟨_, s :: rp :: qs', rfl, ?_, hA1, hA2, ?_, ?_, ?_⟩
          · exact (hperm.cons s).trans List.perm_middle.symm
          · exact fun _ _ => ⟨s, rp :: qs', hA3.choose, rfl, hA3.choose_spec⟩
          · intro p hp1 hp2
            have hps : p ≠ s := fun he => hp2 (he ▸ List.mem_cons_self _ _)
            have hprp : p ≠ rp := by
              intro he
              have hrpm : rp ∈ (f :: t1) ++ t2 := hperm.mem_iff.mp (List.mem_cons_self _ _)
              rcases List.mem_append.mp hrpm with hm | hm
              · exact hp1 (he ▸ hm)
              · exact hp2 (he ▸ List.mem_cons_of_mem _ hm)
            rw [hA4 p hps hprp]
            exact hframe p hp1 (fun hm => hp2 (List.mem_cons_of_mem _ hm))
          · rw [hA5, hlen]

set_option maxHeartbeats 3200000 in
/-- `_list_mergesort` at pointer level: with enough fuel it returns a
chain over the same nodes, forward and inner backward consistent, whose
head `previous` is NULL whenever the chain has at least two nodes; a
chain of at most one node is returned untouched, and no cell outside
the chain changes. -/
lemma pmergesort_spec {α : Type} (r : Bool) (cmp : α → α → Int) :
    ∀ (fuel : Nat) (h : List (Option (PNode α))) (ps : List Ptr),
      ps.Nodup → nextChainOK h ps → innerPrevOK h ps →
      ps.length + 1 ≤ fuel →
      ∃ h2 qs, pmergesort r cmp fuel h ps.head? = (h2, qs.head?) ∧
        qs.Perm ps ∧ nextChainOK h2 qs ∧ innerPrevOK h2 qs ∧
        (2 ≤ ps.length →
          ∃ w ws nd, qs = w :: ws ∧ heapGet h2 w = some nd ∧ nd.previous = none) ∧
        (ps.length ≤ 1 → h2 = h ∧ qs = ps) ∧
        (∀ p, p ∉ ps → heapGet h2 p = heapGet h p) ∧
        h2.length = h.length := by
  intro fuel
  induction fuel with
  | zero =>
    intro h ps hnd hnc hipv hfuel
    exact absurd hfuel (by omega)
  | succ fu ih =>
    intro h ps hnd hnc hipv hfuel
    cases ps with
    | nil =>
      exact ⟨h, [], rfl, List.Perm.refl _, trivial, trivial,
        fun hc => absurd hc (by simp), fun _ => ⟨rfl, rfl⟩, fun _ _ => rfl, rfl⟩
    | cons f t =>
      obtain ⟨nf, hnf, hnfx⟩ := hnc.1
      show ∃ (h2 : List (Option (PNode α))) (qs : List Ptr),
        pmergesort r cmp (fu + 1) h (some f) = (h2, qs.head?) ∧ _
      rw [pmergesort]
      dsimp only
      have hnext : ((heapGet h f).bind fun nd => nd.next) = t.head? := by
        rw [hnf]
        exact hnfx
      rw [hnext]
      cases t with
      | nil =>
        exact ⟨h, [f], rfl, List.Perm.refl _, hnc, hipv,
          fun hc => absurd hc (by simp), fun _ => ⟨rfl, rfl⟩, fun _ _ => rfl, rfl⟩
      | cons s2 t2 =>
        simp only [List.head?_cons]
        have hlen2 : 2 ≤ (f :: s2 :: t2).length := by simp
        have hf0 : (f :: s2 :: t2)[0]? = some f := rfl
        obtain ⟨hsp2, hncA, hncB, hipA, hipB, hspframe, hsplen⟩ :=
          psplit_spec hnd hnc hipv hlen2 hf0
        have hlenle := nextChainOK_length_le hnc hnd
        have hk1 : 1 ≤ ((f :: s2 :: t2).length + 1) / 2 := by simp; omega
        have hkN : ((f :: s2 :: t2).length + 1) / 2 < (f :: s2 :: t2).length := by
          simp
          omega
        have hndA : ((f :: s2 :: t2).take (((f :: s2 :: t2).length + 1) / 2)).Nodup :=
          List.Sublist.nodup (List.take_sublist _ _) hnd
        have hndB : ((f :: s2 :: t2).drop (((f :: s2 :: t2).length + 1) / 2)).Nodup :=
          List.Sublist.nodup (List.drop_sublist _ _) hnd
        have hdisj : ((f :: s2 :: t2).take (((f :: s2 :: t2).length + 1) / 2)).Disjoint
            ((f :: s2 :: t2).drop (((f :: s2 :: t2).length + 1) / 2)) := by
          have := (List.take_append_drop (((f :: s2 :: t2).length + 1) / 2)
            (f :: s2 :: t2)) ▸ hnd
          exact List.disjoint_of_nodup_append this
        have hlenA : ((f :: s2 :: t2).take (((f :: s2 :: t2).length + 1) / 2)).length =
            ((f :: s2 :: t2).length + 1) / 2 := by
          rw [List.length_take]
          omega
        have hlenB : ((f :: s2 :: t2).drop (((f :: s2 :: t2).length + 1) / 2)).length =
            (f :: s2 :: t2).length - ((f :: s2 :: t2).length + 1) / 2 := by
          rw [List.length_drop]
        have hAhead : ((f :: s2 :: t2).take (((f :: s2 :: t2).length + 1) / 2)).head? =
            some f := by
          rw [List.head?_eq_getElem?, List.getElem?_take, if_pos (by omega)]
          exact hf0
        obtain ⟨h2, qs1, hres1, hperm1, hnc1, hip1, hhead1, hid1, hframe1, hlen1⟩ :=
          ih (psplit h f h.length).1
            ((f :: s2 :: t2).take (((f :: s2 :: t2).length + 1) / 2))
            hndA hncA hipA (by rw [hlenA]; omega)
        rw [hAhead] at hres1
        rw [hres1]
        have hncB2 : nextChainOK h2
            ((f :: s2 :: t2).drop (((f :: s2 :: t2).length + 1) / 2)) :=
          nextChainOK_of_eq (fun p hp => hframe1 p (fun hA => hdisj hA hp)) hncB
        have hipB2 : innerPrevOK h2
            ((f :: s2 :: t2).drop (((f :: s2 :: t2).length + 1) / 2)) :=
          innerPrevOK_congr (fun p hp => by
            rw [hframe1 p (fun hA => hdisj hA hp)]) hipB
        obtain ⟨h3, qs2, hres2, hperm2, hnc2', hip2', hhead2, hid2, hframe2, hlen2'⟩ :=
          ih h2 ((f :: s2 :: t2).drop (((f :: s2 :: t2).length + 1) / 2))
            hndB hncB2 hipB2 (by
              rw [hlenB]
              have hfu : (f :: s2 :: t2).length ≤ fu := by omega
              omega)
        rw [hsp2, hres2]
        have hnc1'' : nextChainOK h3 qs1 :=
          nextChainOK_of_eq (fun p hp => hframe2 p
            (fun hB => hdisj (hperm1.mem_iff.mp hp) hB)) hnc1
        have hip1'' : innerPrevOK h3 qs1 :=
          innerPrevOK_congr (fun p hp => by
            rw [hframe2 p (fun hB => hdisj (hperm1.mem_iff.mp hp) hB)]) hip1
        have hndq12 : (qs1 ++ qs2).Nodup := by
          refine (List.Perm.nodup_iff ?_).mpr hnd
          have := hperm1.append hperm2
          rwa [List.take_append_drop] at this
        obtain ⟨h4, qs, hres4, hperm4, hnc4, hip4, hhead4, hframe4, hlen4⟩ :=
          pmerge_spec r cmp (h3.length + 1) h3 qs1 qs2 hndq12 hnc1'' hnc2' hip1'' hip2'
            (by
              have e1 := hperm1.length_eq
              have e2 := hperm2.length_eq
              rw [hlen2', hlen1, hsplen]
              simp at hlenle
              rw [e1, e2, hlenA, hlenB]
              simp
              omega)
        rw [hres4]
        refine ⟨h4, qs, rfl, ?_, hnc4, hip4, ?_, ?_, ?_, ?_⟩
        · refine hperm4.trans ?_
          have := hperm1.append hperm2
          rwa [List.take_append_drop] at this
        · intro _
          refine hhead4 ?_ ?_
          · intro he
            have := hperm1.length_eq
            rw [he, hlenA] at this
            simp at this
            omega
          · intro he
            have := hperm2.length_eq
            rw [he, hlenB] at this
            simp at this
            omega
        · intro hc
          simp at hc
        · intro p hp
          have hpA : p ∉ (f :: s2 :: t2).take (((f :: s2 :: t2).length + 1) / 2) :=
            fun hm => hp (List.mem_of_mem_take hm)
          have hpB : p ∉ (f :: s2 :: t2).drop (((f :: s2 :: t2).length + 1) / 2) :=
            fun hm => hp (List.mem_of_mem_drop hm)
          rw [hframe4 p (fun hm => hpA (hperm1.mem_iff.mp hm))
            (fun hm => hpB (hperm2.mem_iff.mp hm)),
            hframe2 p hpB, hframe1 p hpA, hspframe p hp]
        · rw [hlen4, hlen2', hlen1, hsplen]

/-- The back-recomputing walk of `list_sort`: on a chain it reaches the
last node; on an empty chain it keeps the accumulator. -/
lemma _plastWalk_spec {α : Type} {h : List (Option (PNode α))} :
    ∀ (qs : List Ptr) (fuel : Nat) (acc : Option Ptr), nextChainOK h qs →
      qs.length ≤ fuel →
      _plastWalk h fuel qs.head? acc = if qs.isEmpty then acc else qs.getLast? := by
  intro qs
  induction qs with
  | nil =>
    intro fuel acc _ _
    cases fuel <;> rfl
  | cons p rest ih =>
    intro fuel acc hnc hfuel
    cases fuel with
    | zero => exact absurd hfuel (by simp)
    | succ fu =>
      obtain ⟨nd, hnd, hnx⟩ := hnc.1
      show _plastWalk h (fu + 1) (some p) acc = _
      rw [_plastWalk]
      have hstep : ((heapGet h p).bind fun x => x.next) = rest.head? := by
        rw [hnd]
        exact hnx
      rw [hstep, ih fu (some p) hnc.2 (by simp at hfuel; omega)]
      cases rest with
      | nil => rfl
      | cons q rest2 => simp [List.getLast?_cons_cons]

/-- `list_sort` at pointer level: a failing call leaves the list
untouched; a successful call preserves the structural invariant. -/
lemma plist_sort_wf {α : Type} (l : PList α) (r : Bool)
    (compare : Option (α → α → Int)) (hw : l.WF) :
    ((plist_sort l r compare).2 ≠ none → (plist_sort l r compare).1 = l) ∧
    ((plist_sort l r compare).2 = none → (plist_sort l r compare).1.WF) := by
  obtain ⟨ps, hnd, hsz, hf, hb, hnc, hpl⟩ := hw
  match compare with
  | none => exact ⟨fun _ => rfl, fun hc => Option.noConfusion hc⟩
  | some cmp =>
    refine ⟨fun hc => absurd rfl hc, fun _ => ?_⟩
    obtain ⟨h2, qs, hres, hperm, hncq, hipq, hhead, hid, hframe, hlen⟩ :=
      pmergesort_spec r cmp (l.size + 1) l.heap ps hnd hnc
        (innerPrevOK_of_prevLinksOK hpl) (by omega)
    have hr : pmergesort r cmp (l.size + 1) l.heap l.front = (h2, qs.head?) := by
      rw [hf]
      exact hres
    show PList.WF ((plist_sort l r (some cmp)).1)
    unfold plist_sort
    dsimp only
    rw [hr]
    dsimp only
    have hql : qs.length = ps.length := hperm.length_eq
    have hwalk := _plastWalk_spec qs l.size l.back hncq (by omega)
    refine ⟨qs, hperm.nodup_iff.mpr hnd, by show l.size = qs.length; omega, rfl, ?_,
      hncq, ?_⟩
    · show _plastWalk h2 l.size qs.head? l.back = qs.getLast?
      rw [hwalk]
      by_cases hqe : qs.isEmpty
      · rw [if_pos hqe]
        have hqnil : qs = [] := List.isEmpty_iff.mp hqe
        have hpnil : ps = [] := by
          rw [← List.length_eq_zero]
          rw [hqnil] at hql
          simpa using hql.symm
        rw [hb, hqnil, hpnil]
      · rw [if_neg hqe]
    · by_cases hlen2 : 2 ≤ ps.length
      · obtain ⟨w, ws, nd, hqw, hcell, hprev⟩ := hhead hlen2
        show prevLinksOK h2 none qs
        rw [hqw]
        rw [hqw] at hipq
        exact ⟨⟨nd, hcell, hprev⟩, hipq⟩
      · obtain ⟨hh2, hqp⟩ := hid (by omega)
        show prevLinksOK h2 none qs
        rw [hh2, hqp]
        exact hpl

/-- **C9** (invariants): after every successful LinkedSequence operation
— `insert`, `remove`, `removeAll`, `set`, `sort`, `clear` — the
structural invariant holds: a finite duplicate-free pointer chain
realises the node list (so the chain is finite and acyclic), `front`,
`back` and `size` agree with it, every node's `next` points to its
successor (NULL at the back) and every node's `previous` to its
predecessor (NULL at the front) — in particular `a.next == b` implies
`b.previous == a` — and `front = NULL ↔ back = NULL ↔ count = 0`. -/
theorem C9_structural_invariant {α : Type} (l : PList α) (hw : l.WF)
    (index : Nat) (value : Option α) (na va wd : Bool)
    (key : Option α) (compare : Option (α → α → Int)) (rev : Bool) :
    ((plist_insert l index value na va).2 = none →
      (plist_insert l index value na va).1.WF) ∧
    ((plist_remove l index wd).2 = none → (plist_remove l index wd).1.WF) ∧
    ((plist_removeall l key compare).2 = none →
      (plist_removeall l key compare).1.WF) ∧
    ((plist_set l index value va).2 = none → (plist_set l index value va).1.WF) ∧
    ((plist_sort l rev compare).2 = none → (plist_sort l rev compare).1.WF) ∧
    ((plist_clear l).2 = none → (plist_clear l).1.WF) ∧
    (∀ m : PList α, m.WF →
      ((m.front = none ↔ m.size = 0) ∧ (m.back = none ↔ m.size = 0))) :=
  ⟨(plist_insert_wf l index value na va hw).2,
   (plist_remove_wf l index wd hw).2,
   (plist_removeall_wf l key compare hw).2,
   (plist_set_wf l index value va hw).2,
   (plist_sort_wf l rev compare hw).2,
   fun _ => (plist_clear_wf l).2,
   fun _ hm => PList.WF.front_back_size hm⟩

/-- Witness for C9: the well-formedness hypothesis is dischargeable at a
concrete list (the empty LinkedSequence) and the theorem applies
there. -/
theorem C9_structural_invariant_witness :
    (⟨[], none, none, 0, 1, 4, none⟩ : PList Nat).WF ∧
    (((plist_insert (⟨[], none, none, 0, 1, 4, none⟩ : PList Nat) 0 (some 7)
        true true).2 = none →
      (plist_insert (⟨[], none, none, 0, 1, 4, none⟩ : PList Nat) 0 (some 7)
        true true).1.WF) ∧
     ((plist_remove (⟨[], none, none, 0, 1, 4, none⟩ : PList Nat) 0 false).2 = none →
      (plist_remove (⟨[], none, none, 0, 1, 4, none⟩ : PList Nat) 0 false).1.WF) ∧
     ((plist_removeall (⟨[], none, none, 0, 1, 4, none⟩ : PList Nat) (some 0)
        (some fun _ _ => 0)).2 = none →
      (plist_removeall (⟨[], none, none, 0, 1, 4, none⟩ : PList Nat) (some 0)
        (some fun _ _ => 0)).1.WF) ∧
     ((plist_set (⟨[], none, none, 0, 1, 4, none⟩ : PList Nat) 0 (some 7) true).2 =
        none →
      (plist_set (⟨[], none, none, 0, 1, 4, none⟩ : PList Nat) 0 (some 7) true).1.WF) ∧
     ((plist_sort (⟨[], none, none, 0, 1, 4, none⟩ : PList Nat) false
        (some fun _ _ => 0)).2 = none →
      (plist_sort (⟨[], none, none, 0, 1, 4, none⟩ : PList Nat) false
        (some fun _ _ => 0)).1.WF) ∧
     ((plist_clear (⟨[], none, none, 0, 1, 4, none⟩ : PList Nat)).2 = none →
      (plist_clear (⟨[], none, none, 0, 1, 4, none⟩ : PList Nat)).1.WF) ∧
     (∀ m : PList Nat, m.WF →
       ((m.front = none ↔ m.size = 0) ∧ (m.back = none ↔ m.size = 0)))) :=
  ⟨⟨[], List.nodup_nil, rfl, rfl, rfl, trivial, trivial⟩,
   C9_structural_invariant (⟨[], none, none, 0, 1, 4, none⟩ : PList Nat)
     ⟨[], List.nodup_nil, rfl, rfl, rfl, trivial, trivial⟩
     0 (some 7) true true false (some 0) (some fun _ _ => 0) false⟩

end Collections
